import Mathlib

/-!
Verification of the PokeBot agent core (`src/anil_agent`): the action schema
(`action_schema.py`), the bridge client (`bridge_client.py`), the control loop
and rate limiter (`decision_loop.py`), and the step logger / status snapshot.

Shallow embedding conventions:
* JSON values are modelled by `JVal` (numbers as `ℚ`, objects as ordered
  association lists, matching what `json.loads` produces).
* Wall-clock time is `ℚ` (seconds); `time.sleep` and `time.time` become
  explicit constraints on recorded instants in a trace.
* Fallible Python code returns `Option` / `Except`.
-/

namespace AnilAgent

/-- JSON values as decoded by `json.loads` (numbers kept exact as rationals;
objects are ordered key/value lists, later duplicate keys win on lookup). -/
inductive JVal where
  | null : JVal
  | bool (b : Bool) : JVal
  | num (q : ℚ) : JVal
  | str (s : String) : JVal
  | arr (elems : List JVal) : JVal
  | obj (fields : List (String × JVal)) : JVal

/-- Python truthiness of a JSON-decoded value (`None`, `False`, `0`, `""`,
`[]`, an empty dict are falsy). -/
def JVal.truthy : JVal → Bool
  | .null => false
  | .bool b => b
  | .num q => q != 0
  | .str s => s != ""
  | .arr l => !l.isEmpty
  | .obj l => !l.isEmpty

/-- `d.get(k)` on a JSON-decoded dict: the value of the last binding of `k`
(`json.loads` keeps the last duplicate key), `none` when absent. -/
def jLookup (fields : List (String × JVal)) (k : String) : Option JVal :=
  (fields.reverse.find? (fun p => p.1 = k)).map (·.2)

/-- Truthiness of `d.get(k)` (a missing key gives `None`, which is falsy). -/
def pyTruthy (v : Option JVal) : Bool :=
  match v with
  | none => false
  | some j => j.truthy

/-! ## Action schema (`action_schema.py`)

`ALLOWED_KEYS`, `ButtonPress`, `ButtonsAction`, `WaitAction` and the
discriminated union `Action`, with the pydantic field bounds. -/

/-- The fixed 12-symbol key set `ALLOWED_KEYS`. -/
inductive AllowedKey where
  | UP | DOWN | LEFT | RIGHT | Z | X | C | A | S | D | Q | W
deriving DecidableEq

def AllowedKey.toStr : AllowedKey → String
  | .UP => "UP" | .DOWN => "DOWN" | .LEFT => "LEFT" | .RIGHT => "RIGHT"
  | .Z => "Z" | .X => "X" | .C => "C" | .A => "A"
  | .S => "S" | .D => "D" | .Q => "Q" | .W => "W"

def keyOfString (s : String) : Option AllowedKey :=
  if s = "UP" then some .UP else if s = "DOWN" then some .DOWN
  else if s = "LEFT" then some .LEFT else if s = "RIGHT" then some .RIGHT
  else if s = "Z" then some .Z else if s = "X" then some .X
  else if s = "C" then some .C else if s = "A" then some .A
  else if s = "S" then some .S else if s = "D" then some .D
  else if s = "Q" then some .Q else if s = "W" then some .W
  else none

/-- `ButtonPress(key, ms)` with `ms ∈ [0, 1500]`, default 80. -/
structure ButtonPress where
  key : AllowedKey
  ms : ℤ
deriving DecidableEq

/-- `ButtonsAction(buttons ≤ 20, wait_ms ∈ [0, 10000] default 200, note ≤ 240)`. -/
structure ButtonsAction where
  buttons : List ButtonPress
  wait_ms : ℤ
  note : String
deriving DecidableEq

/-- `WaitAction(wait_ms ∈ [0, 60000] default 500, note ≤ 240)`. -/
structure WaitAction where
  wait_ms : ℤ
  note : String
deriving DecidableEq

/-- The closed tagged union `Action`, discriminated on `type`. -/
inductive Action where
  | buttons (a : ButtonsAction) : Action
  | wait (w : WaitAction) : Action
deriving DecidableEq

def ButtonPress.valid (b : ButtonPress) : Prop :=
  0 ≤ b.ms ∧ b.ms ≤ 1500

instance (b : ButtonPress) : Decidable b.valid := by
  unfold ButtonPress.valid; infer_instance

def ButtonsAction.valid (a : ButtonsAction) : Prop :=
  a.buttons.length ≤ 20 ∧ (∀ b ∈ a.buttons, b.valid) ∧
    0 ≤ a.wait_ms ∧ a.wait_ms ≤ 10000 ∧ a.note.length ≤ 240

instance (a : ButtonsAction) : Decidable a.valid := by
  unfold ButtonsAction.valid; infer_instance

def WaitAction.valid (w : WaitAction) : Prop :=
  0 ≤ w.wait_ms ∧ w.wait_ms ≤ 60000 ∧ w.note.length ≤ 240

instance (w : WaitAction) : Decidable w.valid := by
  unfold WaitAction.valid; infer_instance

/-- Schema bounds of the claim: every produced `Action` satisfies them. -/
def Action.valid : Action → Prop
  | .buttons a => a.valid
  | .wait w => w.valid

instance (a : Action) : Decidable a.valid := by
  cases a <;> (unfold Action.valid; infer_instance)

/-- `safe_fallback_action(note)` = `WaitAction(wait_ms=500, note=note)`. -/
def safe_fallback_action (note : String) : WaitAction :=
  { wait_ms := 500, note := note }

def ButtonPress.toJ (b : ButtonPress) : JVal :=
  .obj [("key", .str b.key.toStr), ("ms", .num (b.ms : ℚ))]

/-- `action_to_dict`: the `model_dump_json`/`json.loads` round trip of an
action, i.e. its serialized dict form (declaration field order). -/
def action_to_dict : Action → JVal
  | .buttons a => .obj [("type", .str "buttons"),
      ("buttons", .arr (a.buttons.map ButtonPress.toJ)),
      ("wait_ms", .num (a.wait_ms : ℚ)), ("note", .str a.note)]
  | .wait w => .obj [("type", .str "wait"),
      ("wait_ms", .num (w.wait_ms : ℚ)), ("note", .str w.note)]

/-! ## JSON text parsing

Model of the JSON decoding performed inside pydantic's
`TypeAdapter.validate_json` (RFC 8259 grammar: literals, numbers with
optional fraction/exponent and no leading zeros, strings with the standard
escapes, arrays, objects). Recursion is fuel-bounded by the input length. -/

def lbrace : Char := Char.ofNat 123

def rbrace : Char := Char.ofNat 125

def skipWs (cs : List Char) : List Char :=
  cs.dropWhile (fun c => c == ' ' || c == '\n' || c == '\t' || c == '\r')

def hexVal (c : Char) : Option ℕ :=
  if c.isDigit then some (c.toNat - 48)
  else if 'a' ≤ c ∧ c ≤ 'f' then some (c.toNat - 87)
  else if 'A' ≤ c ∧ c ≤ 'F' then some (c.toNat - 55)
  else none

/-- Parse the body of a JSON string (after the opening quote), accumulating
characters in reverse. -/
def parseStrAux : ℕ → List Char → List Char → Option (String × List Char)
  | 0, _, _ => none
  | _+1, [], _ => none
  | f+1, c :: cs, acc =>
    if c = '"' then some (String.mk acc.reverse, cs)
    else if c = '\\' then
      match cs with
      | [] => none
      | e :: cs2 =>
        if e = 'u' then
          match cs2 with
          | h1 :: h2 :: h3 :: h4 :: cs3 => do
            let d1 ← hexVal h1
            let d2 ← hexVal h2
            let d3 ← hexVal h3
            let d4 ← hexVal h4
            parseStrAux f cs3 (Char.ofNat (((d1 * 16 + d2) * 16 + d3) * 16 + d4) :: acc)
          | _ => none
        else if e = '"' then parseStrAux f cs2 ('"' :: acc)
        else if e = '\\' then parseStrAux f cs2 ('\\' :: acc)
        else if e = '/' then parseStrAux f cs2 ('/' :: acc)
        else if e = 'n' then parseStrAux f cs2 ('\n' :: acc)
        else if e = 't' then parseStrAux f cs2 ('\t' :: acc)
        else if e = 'r' then parseStrAux f cs2 ('\r' :: acc)
        else if e = 'b' then parseStrAux f cs2 (Char.ofNat 8 :: acc)
        else if e = 'f' then parseStrAux f cs2 (Char.ofNat 12 :: acc)
        else none
    else if c.toNat < 32 then none
    else parseStrAux f cs (c :: acc)

/-- Consume a maximal run of decimal digits, returning value, digit count and
the rest. -/
def parseDigitsAux : List Char → ℕ → ℕ → ℕ × ℕ × List Char
  | [], v, n => (v, n, [])
  | c :: cs, v, n =>
    if c.isDigit then parseDigitsAux cs (v * 10 + (c.toNat - 48)) (n + 1)
    else (v, n, c :: cs)

/-- Optional exponent part, then assemble the rational value. -/
def parseExpPart (neg : Bool) (iv fv fcount : ℕ) (cs : List Char) :
    Option (JVal × List Char) :=
  let mag : ℚ := (iv : ℚ) + (fv : ℚ) / ((10 : ℚ) ^ fcount)
  match cs with
  | c :: rest =>
    if c = 'e' ∨ c = 'E' then
      let (esign, rest1) : ℤ × List Char :=
        match rest with
        | '+' :: r => (1, r)
        | '-' :: r => (-1, r)
        | _ => (1, rest)
      let (ev, ecount, rest2) := parseDigitsAux rest1 0 0
      if ecount = 0 then none
      else
        let q := mag * (10 : ℚ) ^ (esign * (ev : ℤ))
        some (.num (if neg then -q else q), rest2)
    else some (.num (if neg then -mag else mag), c :: rest)
  | [] => some (.num (if neg then -mag else mag), [])

/-- JSON number: `-?(0|[1-9][0-9]*)(\.[0-9]+)?([eE][-+]?[0-9]+)?`. -/
def parseNum (cs : List Char) : Option (JVal × List Char) :=
  let (neg, cs1) : Bool × List Char :=
    match cs with
    | '-' :: rest => (true, rest)
    | _ => (false, cs)
  match cs1 with
  | [] => none
  | c :: _ =>
    if !c.isDigit then none
    else
      let (iv, icount, cs2) := parseDigitsAux cs1 0 0
      if 2 ≤ icount ∧ c = '0' then none
      else
        match cs2 with
        | '.' :: rest =>
          let (fv, fcount, cs3) := parseDigitsAux rest 0 0
          if fcount = 0 then none else parseExpPart neg iv fv fcount cs3
        | _ => parseExpPart neg iv 0 0 cs2

mutual

/-- One JSON value, leading whitespace allowed. -/
def parseVal : ℕ → List Char → Option (JVal × List Char)
  | 0, _ => none
  | f+1, cs0 =>
    match skipWs cs0 with
    | [] => none
    | 'n' :: 'u' :: 'l' :: 'l' :: rest => some (.null, rest)
    | 't' :: 'r' :: 'u' :: 'e' :: rest => some (.bool true, rest)
    | 'f' :: 'a' :: 'l' :: 's' :: 'e' :: rest => some (.bool false, rest)
    | '"' :: rest => (parseStrAux (rest.length + 1) rest []).map fun p => (.str p.1, p.2)
    | '[' :: rest =>
      match skipWs rest with
      | ']' :: rest2 => some (.arr [], rest2)
      | rest2 => (parseElems f rest2).map fun p => (.arr p.1, p.2)
    | c :: rest =>
      if c = lbrace then
        match skipWs rest with
        | [] => none
        | c2 :: rest2 =>
          if c2 = rbrace then some (.obj [], rest2)
          else (parseMembers f (c2 :: rest2)).map fun p => (.obj p.1, p.2)
      else parseNum (c :: rest)

/-- Comma-separated values up to the closing bracket. -/
def parseElems : ℕ → List Char → Option (List JVal × List Char)
  | 0, _ => none
  | f+1, cs => do
    let (v, rest) ← parseVal f cs
    match skipWs rest with
    | ',' :: rest2 =>
      let (vs, rest3) ← parseElems f rest2
      pure (v :: vs, rest3)
    | ']' :: rest2 => pure ([v], rest2)
    | _ => none

/-- Comma-separated `"key": value` members up to the closing brace. -/
def parseMembers : ℕ → List Char → Option (List (String × JVal) × List Char)
  | 0, _ => none
  | f+1, cs =>
    match skipWs cs with
    | '"' :: rest => do
      let (k, rest1) ← parseStrAux (rest.length + 1) rest []
      match skipWs rest1 with
      | ':' :: rest2 =>
        let (v, rest3) ← parseVal f rest2
        match skipWs rest3 with
        | [] => none
        | c :: rest4 =>
          if c = ',' then do
            let (ms, rest5) ← parseMembers f rest4
            pure ((k, v) :: ms, rest5)
          else if c = rbrace then pure ([(k, v)], rest4)
          else none
      | _ => none
    | _ => none

end

/-- `json.loads` on a whole document: one value, trailing whitespace only. -/
def parseJson (s : String) : Option JVal :=
  match parseVal (s.length + 1) s.data with
  | some (v, rest) => if skipWs rest = [] then some v else none
  | none => none

/-! ## Pydantic validation of the `Action` union

Model of `_ACTION_ADAPTER.validate_python` on JSON-decoded data: the
discriminator `type` is required, unknown object fields are ignored
(pydantic's default), integer fields accept integral JSON numbers
(pydantic v2 lax mode; booleans are rejected), and the `Field` bounds and
defaults of `action_schema.py` are enforced. -/

/-- An integral JSON number within `[lo, hi]` (`Field(ge=lo, le=hi)`). -/
def jIntInRange (v : JVal) (lo hi : ℤ) : Option ℤ :=
  match v with
  | .num q => if q.den = 1 ∧ lo ≤ q.num ∧ q.num ≤ hi then some q.num else none
  | _ => none

/-- A bounded integer field with a default for the missing case. -/
def fieldInt (fs : List (String × JVal)) (k : String) (dflt lo hi : ℤ) : Option ℤ :=
  match jLookup fs k with
  | none => some dflt
  | some v => jIntInRange v lo hi

/-- A string field with `max_length` and default `""`. -/
def fieldStr (fs : List (String × JVal)) (k : String) (maxLen : ℕ) : Option String :=
  match jLookup fs k with
  | none => some ""
  | some (.str s) => if s.length ≤ maxLen then some s else none
  | some _ => none

/-- `ButtonPress` validation: `key` required (enum string), `ms` default 80
in `[0, 1500]`. -/
def validateButton : JVal → Option ButtonPress
  | .obj fs => do
    let kv ← jLookup fs "key"
    let ks ← match kv with | .str s => some s | _ => none
    let key ← keyOfString ks
    let ms ← fieldInt fs "ms" 80 0 1500
    pure { key := key, ms := ms }
  | _ => none

/-- `buttons` field: a list of at most 20 valid button presses. -/
def validateButtons (v : JVal) : Option (List ButtonPress) :=
  match v with
  | .arr l => if l.length ≤ 20 then l.mapM validateButton else none
  | _ => none

/-- `validate_action_obj` (the `TypeAdapter(Action)` union, discriminated on
`type`). -/
def validate_action_obj : JVal → Option Action
  | .obj fs =>
    match jLookup fs "type" with
    | some (.str t) =>
      if t = "buttons" then do
        let bs ← match jLookup fs "buttons" with
          | none => some []
          | some v => validateButtons v
        let w ← fieldInt fs "wait_ms" 200 0 10000
        let n ← fieldStr fs "note" 240
        pure (.buttons { buttons := bs, wait_ms := w, note := n })
      else if t = "wait" then do
        let w ← fieldInt fs "wait_ms" 500 0 60000
        let n ← fieldStr fs "note" 240
        pure (.wait { wait_ms := w, note := n })
      else none
    | _ => none
  | _ => none

/-- The exceptions `try_parse_action` distinguishes: `ValidationError`
(which pydantic v2's `validate_json` raises both for malformed JSON and for
schema violations) versus any other exception. -/
inductive PyErr where
  | validation : PyErr
  | other : PyErr
deriving DecidableEq

/-- `parse_action_json(text)` = `_ACTION_ADAPTER.validate_json(text)`.
Malformed JSON raises `ValidationError` (error type `json_invalid`), the
same exception class as a schema violation. No other exception escapes for
a `str` argument, so `.error .other` is never produced. -/
def parse_action_json (text : String) : Except PyErr Action :=
  match parseJson text with
  | none => .error .validation
  | some v =>
    match validate_action_obj v with
    | some a => .ok a
    | none => .error .validation

/-- `try_parse_action`: the two `except` arms of the source, in order
(`ValidationError` → schema fallback, any other exception → parse fallback). -/
def try_parse_action (text : String) : Action :=
  match parse_action_json text with
  | .ok a => a
  | .error .validation => .wait (safe_fallback_action "schema_validation_error")
  | .error .other => .wait (safe_fallback_action "parse_error")

/-! ### Soundness of the validator: accepted values satisfy the bounds -/

theorem mapM_option_mem {α β : Type} (f : α → Option β) :
    ∀ (l : List α) (out : List β), l.mapM f = some out →
      ∀ y ∈ out, ∃ x ∈ l, f x = some y := by
  intro l
  induction l with
  | nil =>
    intro out h y hy
    simp only [List.mapM_nil, pure, Option.some.injEq] at h
    subst h
    simp at hy
  | cons a l ih =>
    intro out h y hy
    rw [List.mapM_cons] at h
    cases hfa : f a with
    | none => rw [hfa] at h; simp at h
    | some b =>
      rw [hfa] at h
      cases hml : l.mapM f with
      | none => rw [hml] at h; simp at h
      | some bs =>
        rw [hml] at h
        simp at h
        subst h
        rcases List.mem_cons.mp hy with hy | hy
        · exact ⟨a, List.mem_cons_self a l, hy ▸ hfa⟩
        · obtain ⟨x, hx, hfx⟩ := ih bs hml y hy
          exact ⟨x, List.mem_cons_of_mem a hx, hfx⟩

theorem mapM_option_length {α β : Type} (f : α → Option β) :
    ∀ (l : List α) (out : List β), l.mapM f = some out → out.length = l.length := by
  intro l
  induction l with
  | nil =>
    intro out h
    simp only [List.mapM_nil, pure, Option.some.injEq] at h
    subst h; rfl
  | cons a l ih =>
    intro out h
    rw [List.mapM_cons] at h
    cases hfa : f a with
    | none => rw [hfa] at h; simp at h
    | some b =>
      rw [hfa] at h
      cases hml : l.mapM f with
      | none => rw [hml] at h; simp at h
      | some bs =>
        rw [hml] at h
        simp at h
        subst h
        simp [ih bs hml]

theorem fieldInt_bounds {fs k dflt lo hi n} (h : fieldInt fs k dflt lo hi = some n)
    (hd1 : lo ≤ dflt) (hd2 : dflt ≤ hi) : lo ≤ n ∧ n ≤ hi := by
  unfold fieldInt at h
  cases hl : jLookup fs k with
  | none =>
    rw [hl] at h
    cases h
    exact ⟨hd1, hd2⟩
  | some v =>
    rw [hl] at h
    unfold jIntInRange at h
    cases v <;> simp at h
    obtain ⟨⟨_, h1, h2⟩, h3⟩ := h
    subst h3
    exact ⟨h1, h2⟩

theorem fieldStr_bounds {fs k maxLen s} (h : fieldStr fs k maxLen = some s) :
    s.length ≤ maxLen := by
  unfold fieldStr at h
  cases hl : jLookup fs k with
  | none => rw [hl] at h; cases h; simp
  | some v =>
    rw [hl] at h
    cases v <;> simp at h
    obtain ⟨h1, h2⟩ := h
    subst h2
    exact h1

theorem validateButton_valid {v b} (h : validateButton v = some b) : b.valid := by
  unfold validateButton at h
  cases v <;> dsimp only at h <;> try cases h
  case obj fs =>
    simp only [Option.bind_eq_bind, Option.bind_eq_some] at h
    obtain ⟨kv, hkv, h⟩ := h
    cases kv with
    | str s =>
      simp only [Option.pure_def, Option.bind_eq_bind, Option.bind_eq_some,
        Option.some.injEq] at h
      obtain ⟨y, hy, key, hkey, ms, hms, h⟩ := h
      subst h
      exact fieldInt_bounds hms (by norm_num) (by norm_num)
    | null => simp at h
    | bool b2 => simp at h
    | num q2 => simp at h
    | arr l2 => simp at h
    | obj fs2 => simp at h

theorem validateButtons_valid {v l} (h : validateButtons v = some l) :
    l.length ≤ 20 ∧ ∀ b ∈ l, b.valid := by
  unfold validateButtons at h
  cases v <;> dsimp only at h <;> try cases h
  case arr elems =>
    split at h
    · rename_i hlen
      constructor
      · rw [mapM_option_length validateButton elems l h]; exact hlen
      · intro b hb
        obtain ⟨x, _, hx⟩ := mapM_option_mem validateButton elems l h b hb
        exact validateButton_valid hx
    · cases h

theorem validate_action_obj_valid {v a} (h : validate_action_obj v = some a) :
    a.valid := by
  unfold validate_action_obj at h
  cases v <;> dsimp only at h <;> try cases h
  case obj fs =>
    revert h
    cases ht : jLookup fs "type" with
    | none => intro h; cases h
    | some tv =>
      cases tv <;> dsimp only <;> intro h <;> try cases h
      case str t =>
        by_cases hb : t = "buttons"
        · rw [if_pos hb] at h
          revert h
          cases hlb : jLookup fs "buttons" with
          | none =>
            intro h
            simp only [Option.pure_def, Option.bind_eq_bind, Option.bind_eq_some,
              Option.some.injEq] at h
            obtain ⟨y, hy, w, hw, n, hn, h⟩ := h
            subst h
            subst hy
            have hw' := fieldInt_bounds hw (by norm_num) (by norm_num)
            exact ⟨by simp, by simp, hw'.1, hw'.2, fieldStr_bounds hn⟩
          | some bv =>
            intro h
            simp only [Option.pure_def, Option.bind_eq_bind, Option.bind_eq_some,
              Option.some.injEq] at h
            obtain ⟨bs, hbs, w, hw, n, hn, h⟩ := h
            subst h
            have hbs' := validateButtons_valid hbs
            have hw' := fieldInt_bounds hw (by norm_num) (by norm_num)
            exact ⟨hbs'.1, hbs'.2, hw'.1, hw'.2, fieldStr_bounds hn⟩
        · rw [if_neg hb] at h
          by_cases hwt : t = "wait"
          · rw [if_pos hwt] at h
            simp only [Option.pure_def, Option.bind_eq_bind, Option.bind_eq_some,
              Option.some.injEq] at h
            obtain ⟨w, hwv, n, hn, h⟩ := h
            subst h
            have hw' := fieldInt_bounds hwv (by norm_num) (by norm_num)
            exact ⟨hw'.1, hw'.2, fieldStr_bounds hn⟩
          · rw [if_neg hwt] at h; cases h

/-- C9 (amended): `try_parse_action` is total on strings and always returns
an action satisfying the schema bounds.  Whenever pydantic raises
`ValidationError` — which covers both schema violations *and* malformed
JSON, since `validate_json` raises `ValidationError` for invalid JSON — the
result is `Wait(500, "schema_validation_error")`; the `parse_error`
fallback is produced only by a non-`ValidationError` exception, which never
occurs for a string input. -/
theorem try_parse_action_total (s : String) :
    (try_parse_action s).valid ∧
    (parse_action_json s = .error .validation →
      try_parse_action s = .wait (safe_fallback_action "schema_validation_error")) ∧
    (parse_action_json s = .error .other →
      try_parse_action s = .wait (safe_fallback_action "parse_error")) := by
  refine ⟨?_, ?_, ?_⟩
  · unfold try_parse_action
    cases hp : parse_action_json s with
    | ok a =>
      dsimp only
      unfold parse_action_json at hp
      revert hp
      cases hj : parseJson s with
      | none => intro hp; cases hp
      | some v =>
        dsimp only
        cases hv : validate_action_obj v with
        | none => intro hp; cases hp
        | some a' =>
          dsimp only
          intro hp
          cases hp
          exact validate_action_obj_valid hv
    | error e => cases e <;> dsimp only <;> decide
  · intro h; unfold try_parse_action; rw [h]
  · intro h; unfold try_parse_action; rw [h]

/-- C9 witness: a valid document gives a bounds-satisfying action, and a
schema-invalid document produces the schema fallback. -/
theorem try_parse_action_total_witness :
    (try_parse_action "\x7b\"type\":\"wait\"\x7d").valid ∧
    try_parse_action "nope" = .wait (safe_fallback_action "schema_validation_error") :=
  ⟨(try_parse_action_total "\x7b\"type\":\"wait\"\x7d").1,
   (try_parse_action_total "nope").2.1 rfl⟩

/-- C9 counterexample: the input `"garbage"` is not valid JSON at all — it
does not parse — yet `try_parse_action` returns the
`schema_validation_error` fallback, not the `parse_error` fallback the
claim assigns to parse failures (pydantic raises `ValidationError` for
malformed JSON). -/
theorem try_parse_action_counterexample :
    parseJson "garbage" = none ∧
    try_parse_action "garbage" = .wait (safe_fallback_action "schema_validation_error") ∧
    (safe_fallback_action "schema_validation_error").note ≠ "parse_error" :=
  ⟨rfl, rfl, by decide⟩

/-! ## Bridge client (`bridge_client.py`)

The client state is reduced to whether a connection is open
(`_sock`/`_file` both set).  The environment decides the outcome of each
attempt of the `request` loop. -/

/-- Outcome of one iteration of the `request` attempt loop (connect if
needed, write, flush, read one line, decode): a decoded response, or a
failure anywhere in that cycle (connect error, I/O error, empty line,
undecodable line). -/
inductive AttemptOutcome where
  | ok (resp : JVal) : AttemptOutcome
  | fail : AttemptOutcome

/-- `_ensure_connected_locked`: an open connection is kept; otherwise a
fresh connection is opened.  Returns (connected afterwards, whether a fresh
connect was performed). -/
def ensureConnected (conn : Bool) : Bool × Bool := (true, !conn)

/-- The `for attempt in range(2)` body of `request`: a successful attempt
returns the decoded response with the connection open; a failed attempt
runs `_close_locked` and continues; an exhausted loop raises
`ConnectionError`.  Result: (outcome, connected afterwards, attempts consumed). -/
def requestFrom (out : ℕ → AttemptOutcome) :
    List ℕ → Bool → Except String JVal × Bool × ℕ
  | [], conn => (.error "bridge request failed after retries", conn, 0)
  | a :: rest, _ =>
    match out a with
    | .ok r => (.ok r, true, 1)
    | .fail =>
      let s := requestFrom out rest false
      (s.1, s.2.1, s.2.2 + 1)

/-- `BridgeClient.request` given the per-attempt outcomes and the current
connection state. -/
def request (out : ℕ → AttemptOutcome) (conn : Bool) :
    Except String JVal × Bool × ℕ :=
  requestFrom out (List.range 2) conn

/-- C4: every `request` call makes at most two attempts; a first failure is
retried exactly once (fail then success yields the response in exactly two
attempts, connection open); two consecutive failures raise `ConnectionError`
with the client disconnected, so the next call opens a fresh connection. -/
theorem bridge_request_retry (out : ℕ → AttemptOutcome) (conn : Bool) :
    (request out conn).2.2 ≤ 2 ∧
    (∀ r, out 0 = .fail → out 1 = .ok r →
      request out conn = (.ok r, true, 2)) ∧
    (out 0 = .fail → out 1 = .fail →
      request out conn = (.error "bridge request failed after retries", false, 2) ∧
      (ensureConnected false).2 = true) := by
  have hr : List.range 2 = [0, 1] := rfl
  unfold request
  rw [hr]
  refine ⟨?_, ?_, ?_⟩
  · cases h0 : out 0 with
    | ok r => simp [requestFrom, h0]
    | fail =>
      cases h1 : out 1 with
      | ok r => simp [requestFrom, h0, h1]
      | fail => simp [requestFrom, h0, h1]
  · intro r h0 h1
    simp [requestFrom, h0, h1]
  · intro h0 h1
    simp [requestFrom, h0, h1, ensureConnected]

/-- C4 witness: both attempts fail on a connected client. -/
theorem bridge_request_retry_witness :
    request (fun _ => .fail) true =
      (.error "bridge request failed after retries", false, 2) :=
  ((bridge_request_retry (fun _ => .fail) true).2.2 rfl rfl).1

/-- The dict payload of a JSON value, if it is a dict. -/
def jAsObj : JVal → Option (List (String × JVal))
  | .obj d => some d
  | _ => none

/-- Whether a JSON value is a dict. -/
def jIsObj : JVal → Bool
  | .obj _ => true
  | _ => false

/-- `BridgeClient.get_events` applied to a decoded response dict: check
`ok`, take `events` with default `[]`, require a list, and keep exactly the
dict elements. -/
def get_events (resp : List (String × JVal)) :
    Except String (List (List (String × JVal))) :=
  if !(pyTruthy (jLookup resp "ok")) then .error "bridge events error"
  else
    match (jLookup resp "events").getD (.arr []) with
    | .arr l => .ok (l.filterMap jAsObj)
    | _ => .error "bridge events invalid"

theorem filterMap_jAsObj_filter :
    ∀ l : List JVal, (l.filterMap jAsObj).map JVal.obj = l.filter jIsObj := by
  intro l
  induction l with
  | nil => rfl
  | cons e l ih =>
    cases e <;> simp [jAsObj, jIsObj, List.filterMap_cons, List.filter_cons, ih]

/-- C10: on a response with truthy `ok` whose `events` payload (default
`[]`) is a list, `get_events` returns precisely the dict elements of that
list in their original order — re-wrapping the result gives the sublist of
dict elements — dropping non-dict elements silently; and it raises exactly
when `ok` is falsy or the payload is not a list. -/
theorem get_events_spec (resp : List (String × JVal)) :
    (∀ l, pyTruthy (jLookup resp "ok") = true →
      (jLookup resp "events").getD (.arr []) = .arr l →
      get_events resp = .ok (l.filterMap jAsObj) ∧
      (l.filterMap jAsObj).map JVal.obj = l.filter jIsObj) ∧
    ((∃ e, get_events resp = .error e) ↔
      (pyTruthy (jLookup resp "ok") = false ∨
        ∀ l, (jLookup resp "events").getD (.arr []) ≠ .arr l)) := by
  constructor
  · intro l hok hev
    unfold get_events
    rw [hok, hev]
    exact ⟨rfl, filterMap_jAsObj_filter l⟩
  · unfold get_events
    cases hok : pyTruthy (jLookup resp "ok") with
    | false =>
      constructor
      · intro _
        left
        rfl
      · intro _
        exact ⟨"bridge events error", by simp⟩
    | true =>
      simp only [Bool.not_true, Bool.false_eq_true, if_false]
      cases hev : (jLookup resp "events").getD (.arr []) with
      | arr l =>
        constructor
        · rintro ⟨e, he⟩
          cases he
        · rintro (h | h)
          · cases h
          · exact absurd rfl (h l)
      | null => exact ⟨fun _ => Or.inr (fun l h => by cases h), fun _ => ⟨_, rfl⟩⟩
      | bool b => exact ⟨fun _ => Or.inr (fun l h => by cases h), fun _ => ⟨_, rfl⟩⟩
      | num q => exact ⟨fun _ => Or.inr (fun l h => by cases h), fun _ => ⟨_, rfl⟩⟩
      | str s => exact ⟨fun _ => Or.inr (fun l h => by cases h), fun _ => ⟨_, rfl⟩⟩
      | obj d => exact ⟨fun _ => Or.inr (fun l h => by cases h), fun _ => ⟨_, rfl⟩⟩

/-- C10 witness: truthy `ok`, events `[{}, null, {"a": 1}]` — the two dicts
come back in order, the `null` is dropped. -/
theorem get_events_spec_witness :
    get_events [("ok", .bool true),
        ("events", .arr [.obj [], .null, .obj [("a", .bool true)]])] =
      .ok [[], [("a", .bool true)]] :=
  ((get_events_spec [("ok", .bool true),
        ("events", .arr [.obj [], .null, .obj [("a", .bool true)]])]).1
      [.obj [], .null, .obj [("a", .bool true)]] rfl rfl).1

/-! ## Controller lifecycle (`AgentController.start/pause/resume/stop`) -/

/-- The concurrency-control state of `AgentController`: the `_stop` and
`_paused` events, whether a worker thread is alive, the `running`/`paused`
status fields, and a count of worker-thread spawns. -/
structure CtrlState where
  stopSet : Bool
  pausedSet : Bool
  threadAlive : Bool
  statusRunning : Bool
  statusPaused : Bool
  spawned : ℕ
deriving DecidableEq

/-- The state after `__init__`: `_paused` is set, status is
`running=False, paused=True`, no worker. -/
def initCtrl : CtrlState :=
  { stopSet := false, pausedSet := true, threadAlive := false,
    statusRunning := false, statusPaused := true, spawned := 0 }

/-- `start()`: returns immediately when a worker thread is alive; otherwise
clears both signals, spawns the worker, and marks the status running. -/
def CtrlState.start (s : CtrlState) : CtrlState :=
  if s.threadAlive then s
  else { s with stopSet := false, pausedSet := false, threadAlive := true,
                statusRunning := true, statusPaused := false,
                spawned := s.spawned + 1 }

/-- `pause()`: set the pause signal and the status flag. -/
def CtrlState.pause (s : CtrlState) : CtrlState :=
  { s with pausedSet := true, statusPaused := true }

/-- `resume()`: clear the pause signal and the status flag. -/
def CtrlState.resume (s : CtrlState) : CtrlState :=
  { s with pausedSet := false, statusPaused := false }

/-- `stop()`: set the stop signal, clear pause, and after the bounded join
force the status to not-running/paused (whether the worker actually exited
is a real-time matter outside this state). -/
def CtrlState.stop (s : CtrlState) : CtrlState :=
  { s with stopSet := true, pausedSet := false,
           statusRunning := false, statusPaused := true }

/-- C3 counterexample: in the state reached by `start(); pause()` the worker
is alive and paused; calling `start()` there is a complete no-op — the pause
signal stays set and the status stays `paused = true` — contradicting the
claim that `start()` takes Paused to Running (pause cleared, paused=false). -/
theorem start_on_paused_counterexample :
    (initCtrl.start.pause).start = initCtrl.start.pause ∧
    (initCtrl.start.pause).start.pausedSet = true ∧
    (initCtrl.start.pause).start.statusPaused = true := by
  decide

/-- C3 (amended): `start()` transitions to Running (signals cleared, worker
spawned, status running/not-paused) only from states with no live worker
thread; when a worker is alive — running or paused — `start()` is a no-op
that in particular does not clear the pause signal, and a repeated `start()`
never spawns a second worker. -/
theorem start_spec (s : CtrlState) :
    (s.threadAlive = true → s.start = s) ∧
    (s.threadAlive = false →
      s.start = { s with
        stopSet := false, pausedSet := false, threadAlive := true,
        statusRunning := true, statusPaused := false,
        spawned := s.spawned + 1 }) ∧
    s.start.start.spawned = s.start.spawned := by
  cases hs : s.threadAlive <;>
    simp [CtrlState.start, hs]

/-- C3 witness: from the freshly constructed controller, `start()` spawns
the worker and enters Running; a second `start()` spawns nothing. -/
theorem start_spec_witness :
    initCtrl.start = { initCtrl with
      stopSet := false, pausedSet := false,
      threadAlive := true, statusRunning := true, statusPaused := false,
      spawned := 1 } ∧
    initCtrl.start.start.spawned = initCtrl.start.spawned :=
  ⟨(start_spec initCtrl).2.1 rfl, (start_spec initCtrl).2.2⟩

/-! ## Rate limiter (`AgentController._rate_limit` and `_action_times`) -/

/-- `_rate_limit()`: with a non-positive configured maximum, return at once.
Otherwise pop timestamps older than the 60-second window from the front of
the deque, and if the buffer still holds at least the configured maximum,
sleep `max(0.05, window − (now − oldest))`.  Returns the trimmed buffer and
the sleep duration (`0` when no sleep happens).  Time is in seconds (`ℚ`). -/
def ratePermit (maxPerMin : ℤ) (now : ℚ) (buf : List ℚ) : List ℚ × ℚ :=
  if maxPerMin ≤ 0 then (buf, 0)
  else
    let b := buf.dropWhile (fun t => decide (now - t > 60))
    if maxPerMin ≤ (b.length : ℤ) then
      (b, max 0.05 (60 - (now - b.headI)))
    else (b, 0)

/-- `collections.deque(maxlen=n).append`: appending to a full deque evicts
the leftmost element. -/
def dequeAppend {α : Type} (maxlen : ℕ) (buf : List α) (x : α) : List α :=
  if maxlen ≤ buf.length then buf.tail ++ [x] else buf ++ [x]

/-! ## One iteration of `AgentController._run_loop` -/

/-- The `AgentStatus` fields as the loop thread maintains them. -/
structure StStatus where
  running : Bool
  paused : Bool
  last_step : ℕ
  last_state : Option JVal
  last_action : Option JVal
  last_error : Option String
  last_action_t : Option String

/-- Loop-owned mutable state threaded between iterations:
`_recent_actions` (deque maxlen 10 of action dicts), `_action_times`
(deque maxlen 1200), the local `step` counter, and `_status`. -/
structure LoopState where
  recent : List JVal
  times : List ℚ
  step : ℕ
  status : StStatus

/-- Environment of a single iteration: the signal states at each check and
the outcomes of every external call, in program order. -/
structure IterEnv where
  maxPerMin : ℤ
  stopTop : Bool
  pausedTop : Bool
  nowPermit : ℚ
  stateRes : Except String JVal
  eventsRes : Except String (List JVal)
  captureRes : Except String (List ℕ)
  pausedMid : Bool
  stopMid : Bool
  geminiText : Except String String
  execRaises : Bool
  execMsg : String
  tExec : ℚ
  logRaises : Bool
  nowIso : String

/-- Observable effects of one iteration. -/
structure IterResult where
  entered : Bool
  decided : Bool
  executed : Option Action
  execOk : Bool
  logged : Option ℕ

/-- `GeminiClient.decide_action`: the SDK/REST call can raise; a returned
text is always funnelled through `try_parse_action` (so a schema-invalid
reply surfaces as the fallback action, not as an exception). -/
def decide_action (r : Except String String) : Except String Action :=
  r.map try_parse_action

/-- The action an iteration decides: the provider result, or the
`gemini_error` fallback when the provider raised. -/
def iterAction (env : IterEnv) : Action :=
  match decide_action env.geminiText with
  | .error _ => .wait (safe_fallback_action "gemini_error")
  | .ok a => a

/-- One full pass of the `while` body of `_run_loop` (lines 174–253),
returning the new loop state and the iteration's observable effects.
Event dispatch (step 4) only runs the isolated handler and changes no
loop-owned state, so it leaves no trace here. -/
def runIter (env : IterEnv) (st : LoopState) : LoopState × IterResult :=
  if env.stopTop ∨ env.pausedTop then
    (st, { entered := false, decided := false, executed := none,
           execOk := false, logged := none })
  else
    let times1 := (ratePermit env.maxPerMin env.nowPermit st.times).1
    let (stateV, status2) :=
      match env.stateRes with
      | .error e => (JVal.obj [],
          { st.status with last_error := some ("bridge_error: " ++ e) })
      | .ok s =>
        match env.eventsRes with
        | .error e => (s, { st.status with last_error := some ("bridge_error: " ++ e) })
        | .ok _ => (s, st.status)
    let (png, status3) :=
      match env.captureRes with
      | .error e => (([] : List ℕ),
          { status2 with last_error := some ("capture_error: " ++ e) })
      | .ok b => (b, status2)
    if env.pausedMid ∨ env.stopMid then
      ({ st with times := times1, status := status3 },
       { entered := true, decided := false, executed := none,
         execOk := false, logged := none })
    else
      let action := iterAction env
      let status6 :=
        match decide_action env.geminiText with
        | .error e => { status3 with last_error := some ("gemini_error: " ++ e) }
        | .ok _ => status3
      let (times2, status7) :=
        if env.execRaises then
          (times1, { status6 with last_error := some ("input_error: " ++ env.execMsg) })
        else (dequeAppend 1200 times1 env.tExec, status6)
      let logged := if png ≠ [] ∧ ¬ env.logRaises then some st.step else none
      let status10 := { status7 with
        last_step := st.step,
        last_state := some stateV,
        last_action := some (action_to_dict action),
        last_action_t := some env.nowIso }
      ({ recent := dequeAppend 10 st.recent (action_to_dict action),
         times := times2, step := st.step + 1, status := status10 },
       { entered := true, decided := true, executed := some action,
         execOk := !env.execRaises, logged := logged })

/-- A quiescent initial loop state. -/
def st0 : LoopState :=
  { recent := [], times := [], step := 0,
    status := { running := true, paused := false, last_step := 0,
                last_state := none, last_action := none,
                last_error := none, last_action_t := none } }

/-- An iteration in which every collaborator succeeds except the actuator,
and the provider returns a minimal buttons action. -/
def c2env : IterEnv :=
  { maxPerMin := 240, stopTop := false, pausedTop := false, nowPermit := 0,
    stateRes := .ok (.obj []), eventsRes := .ok [], captureRes := .ok [1],
    pausedMid := false, stopMid := false,
    geminiText := .ok "\x7b\"type\":\"buttons\"\x7d",
    execRaises := true, execMsg := "boom", tExec := 0,
    logRaises := false, nowIso := "t0" }

/-- C2 counterexample: the actuator raises, so by the claim neither buffer
may gain an entry for this iteration; the timestamp deque indeed stays
empty, but the decided action is still appended to `_recent_actions`
(decision_loop.py line 251 runs outside the `try`), so the recent-actions
window grows from 0 to 1 entries. -/
theorem recent_append_on_failure_counterexample :
    (runIter c2env st0).2.execOk = false ∧
    (runIter c2env st0).1.times = [] ∧
    (runIter c2env st0).1.recent =
      [action_to_dict (.buttons { buttons := [], wait_ms := 200, note := "" })] :=
  ⟨rfl, rfl, rfl⟩

/-- C2 (amended): in a fully entered iteration the timestamp deque gains
the execution timestamp exactly when `_execute_action` completed without
raising, while the decided action's dict is appended to the recent-actions
deque unconditionally — also when actuation failed. -/
theorem iter_buffers_spec (env : IterEnv) (st : LoopState)
    (htop : env.stopTop = false) (hp : env.pausedTop = false)
    (hm : env.pausedMid = false) (hs : env.stopMid = false) :
    ((runIter env st).1.times =
      if env.execRaises then (ratePermit env.maxPerMin env.nowPermit st.times).1
      else dequeAppend 1200 (ratePermit env.maxPerMin env.nowPermit st.times).1 env.tExec) ∧
    (runIter env st).1.recent =
      dequeAppend 10 st.recent (action_to_dict (iterAction env)) := by
  cases hst : env.stateRes <;> cases hev : env.eventsRes <;>
    cases hc : env.captureRes <;> cases hex : env.execRaises <;>
      simp [runIter, htop, hp, hm, hs, hst, hev, hc, hex]

/-- C2 witness: in the concrete failing-actuator iteration the buffers obey
the amended rule. -/
theorem iter_buffers_spec_witness :
    (runIter c2env st0).1.recent =
      dequeAppend 10 st0.recent (action_to_dict (iterAction c2env)) :=
  (iter_buffers_spec c2env st0 rfl rfl rfl rfl).2

/-- Same as `c2env` but the provider raises and the actuator works. -/
def c5env : IterEnv :=
  { c2env with geminiText := .error "boom", execRaises := false }

/-- C5: when the decision provider raises, the executed action is exactly
`Wait(500, "gemini_error")`; when it returns text that pydantic rejects
(`ValidationError`), the executed action is exactly
`Wait(500, "schema_validation_error")`; in both cases the iteration runs to
completion (the step counter advances — no crash, no indefinite block). -/
theorem decision_fallback_spec (env : IterEnv) (st : LoopState)
    (htop : env.stopTop = false) (hp : env.pausedTop = false)
    (hm : env.pausedMid = false) (hs : env.stopMid = false) :
    (∀ e, env.geminiText = .error e →
      (runIter env st).2.executed =
        some (.wait (safe_fallback_action "gemini_error"))) ∧
    (∀ t, env.geminiText = .ok t → parse_action_json t = .error .validation →
      (runIter env st).2.executed =
        some (.wait (safe_fallback_action "schema_validation_error"))) ∧
    (runIter env st).1.step = st.step + 1 := by
  refine ⟨?_, ?_, ?_⟩
  · intro e he
    cases hst : env.stateRes <;> cases hev : env.eventsRes <;>
      cases hc : env.captureRes <;>
        simp [runIter, htop, hp, hm, hs, hst, hev, hc, iterAction, decide_action, he,
          Except.map]
  · intro t ht hparse
    have hact : iterAction env = .wait (safe_fallback_action "schema_validation_error") := by
      unfold iterAction decide_action
      rw [ht]
      show (match try_parse_action t with
        | a => a) = _
      unfold try_parse_action
      rw [hparse]
    cases hst : env.stateRes <;> cases hev : env.eventsRes <;>
      cases hc : env.captureRes <;>
        simp [runIter, htop, hp, hm, hs, hst, hev, hc, hact]
  · cases hst : env.stateRes <;> cases hev : env.eventsRes <;>
      cases hc : env.captureRes <;>
        simp [runIter, htop, hp, hm, hs, hst, hev, hc]

/-- C5 witness: the provider raises in `c5env`; the executed action is the
500 ms wait fallback naming the failure. -/
theorem decision_fallback_spec_witness :
    (runIter c5env st0).2.executed =
      some (.wait (safe_fallback_action "gemini_error")) :=
  (decision_fallback_spec c5env st0 rfl rfl rfl rfl).1 "boom" rfl

/-- Same as `c2env` but the pause signal is observed at the checkpoint. -/
def c6env : IterEnv :=
  { c2env with pausedMid := true, execRaises := false }

/-- C6: if the pause or stop signal is set at the step-5 checkpoint, the
iteration consults no decision provider, executes nothing, logs no step,
leaves the step counter, recent-actions window and the status's
step/state/action fields untouched (only `last_error` may have been updated
by steps 2–3), and only the rate-limit trim of the timestamp deque remains. -/
theorem checkpoint_skip_spec (env : IterEnv) (st : LoopState)
    (htop : env.stopTop = false) (hp : env.pausedTop = false)
    (hmid : env.pausedMid = true ∨ env.stopMid = true) :
    (runIter env st).2.decided = false ∧
    (runIter env st).2.executed = none ∧
    (runIter env st).2.logged = none ∧
    (runIter env st).1.step = st.step ∧
    (runIter env st).1.recent = st.recent ∧
    (runIter env st).1.status.last_step = st.status.last_step ∧
    (runIter env st).1.status.last_state = st.status.last_state ∧
    (runIter env st).1.status.last_action = st.status.last_action ∧
    (runIter env st).1.status.last_action_t = st.status.last_action_t ∧
    (runIter env st).1.times = (ratePermit env.maxPerMin env.nowPermit st.times).1 := by
  rcases hmid with hmid | hmid <;>
    cases hst : env.stateRes <;> cases hev : env.eventsRes <;>
      cases hc : env.captureRes <;>
        simp [runIter, htop, hp, hmid, hst, hev, hc]

/-- C6 witness: with the pause signal set at the checkpoint, the concrete
iteration decides and executes nothing and the step counter stands still. -/
theorem checkpoint_skip_spec_witness :
    (runIter c6env st0).2.executed = none ∧ (runIter c6env st0).1.step = st0.step :=
  ⟨(checkpoint_skip_spec c6env st0 rfl rfl (Or.inl rfl)).2.1,
   (checkpoint_skip_spec c6env st0 rfl rfl (Or.inl rfl)).2.2.2.1⟩

/-! ## Step logger (`StepLogger.log_step` with `write_json`) -/

def digitChar (d : ℕ) : Char := Char.ofNat (48 + d)

/-- Decimal digits of `n`, most significant first (fuel-bounded division). -/
def natChars : ℕ → ℕ → List Char
  | 0, _ => []
  | f+1, n => if n < 10 then [digitChar n] else natChars f (n / 10) ++ [digitChar (n % 10)]

/-- `f"{n:06d}"` for a non-negative step index. -/
def pad6 (n : ℕ) : String :=
  let ds := natChars (n + 1) n
  String.mk (List.replicate (6 - ds.length) '0' ++ ds)

/-- Contents of a file under the run's `steps/` directory. -/
inductive FileData where
  | png (bytes : List ℕ) : FileData
  | jsonDoc (v : JVal) : FileData

/-- The `steps/` directory as an ordered name→contents table. -/
structure FS where
  files : List (String × FileData)

/-- `Path.write_bytes` / `write_text`: create or fully replace the named
file. -/
def setFile (fs : FS) (name : String) (d : FileData) : FS :=
  ⟨fs.files.filter (fun p => !(p.1 == name)) ++ [(name, d)]⟩

def lookupFile (fs : FS) (name : String) : Option FileData :=
  (fs.files.find? (fun p => p.1 == name)).map (·.2)

/-- The JSON sidecar record `log_step` builds (field order as written). -/
def stepRecord (step : ℕ) (t : String) (state : JVal) (events : List JVal)
    (action : Action) : JVal :=
  .obj [("step", .num (step : ℚ)), ("t", .str t), ("state", state),
        ("events", .arr events), ("action", action_to_dict action),
        ("screenshot", .str (pad6 step ++ ".png"))]

/-- `StepLogger.log_step`: write the image, then the JSON sidecar, both
named by the zero-padded step index. -/
def log_step (fs : FS) (step : ℕ) (t : String) (state : JVal)
    (events : List JVal) (action : Action) (png : List ℕ) : FS :=
  let fs1 := setFile fs (pad6 step ++ ".png") (.png png)
  setFile fs1 (pad6 step ++ ".json")
    (.jsonDoc (stepRecord step t state events action))

theorem filter_find?_none (l : List (String × FileData)) (n : String) :
    (l.filter (fun p => !(p.1 == n))).find? (fun p => p.1 == n) = none := by
  apply List.find?_eq_none.mpr
  intro x hx
  have hmem := List.of_mem_filter hx
  simp only [Bool.not_eq_true'] at hmem
  simp [hmem]

theorem setFile_lookup_same (fs : FS) (n : String) (d : FileData) :
    lookupFile (setFile fs n d) n = some d := by
  unfold lookupFile setFile
  rw [List.find?_append, filter_find?_none]
  simp

theorem setFile_lookup_other (fs : FS) (n : String) (d : FileData) (m : String)
    (h : m ≠ n) : lookupFile (setFile fs n d) m = lookupFile fs m := by
  unfold lookupFile setFile
  rw [List.find?_append]
  have h2 : List.find? (fun p => p.1 == m) [(n, d)] = none := by
    simp [List.find?_cons, Ne.symm h]
  have hnm : (n == m) = false := by simp [Ne.symm h]
  have h3 : List.find? (fun p => p.1 == m) (fs.files.filter (fun p => !(p.1 == n))) =
      List.find? (fun p => p.1 == m) fs.files := by
    induction fs.files with
    | nil => rfl
    | cons p l ih =>
      by_cases hp : p.1 = n
      · simp [List.filter_cons, hp, List.find?_cons, hnm, ih]
      · by_cases hm : p.1 = m
        · simp [List.filter_cons, hp, List.find?_cons, hm, h]
        · simp [List.filter_cons, hp, List.find?_cons, hm, ih]
  rw [h2, h3]
  simp

theorem setFile_count_same (fs : FS) (n : String) (d : FileData) :
    (setFile fs n d).files.countP (fun p => p.1 == n) = 1 := by
  unfold setFile
  rw [List.countP_append, List.countP_filter]
  simp

theorem setFile_count_ne (fs : FS) (n : String) (d : FileData) (m : String)
    (h : m ≠ n) :
    (setFile fs n d).files.countP (fun p => p.1 == m) =
      fs.files.countP (fun p => p.1 == m) := by
  unfold setFile
  rw [List.countP_append, List.countP_filter]
  have heq : ∀ p : String × FileData,
      (((p.1 == m) && !(p.1 == n)) = true) ↔ ((p.1 == m) = true) := by
    intro p
    by_cases hp : p.1 = m
    · simp [hp, Ne.symm h, h]
    · simp [hp]
  rw [List.countP_congr (fun p _ => heq p)]
  simp [Ne.symm h]

theorem png_json_names_ne (x : String) : x ++ ".png" ≠ x ++ ".json" := by
  intro h
  have : (x ++ ".png").data = (x ++ ".json").data := by rw [h]
  simp only [String.data_append] at this
  have := List.append_cancel_left this
  simp at this

/-- C8: after two `log_step` calls with the same step index `s`, exactly
one image file and one JSON sidecar named by the zero-padded index exist;
each holds the contents of the later call (full replacement), and every
other file is untouched. -/
theorem log_step_last_write_wins (fs : FS) (s : ℕ)
    (t1 t2 : String) (sv1 sv2 : JVal) (ev1 ev2 : List JVal)
    (a1 a2 : Action) (p1 p2 : List ℕ) :
    lookupFile (log_step (log_step fs s t1 sv1 ev1 a1 p1) s t2 sv2 ev2 a2 p2)
        (pad6 s ++ ".png") = some (.png p2) ∧
    lookupFile (log_step (log_step fs s t1 sv1 ev1 a1 p1) s t2 sv2 ev2 a2 p2)
        (pad6 s ++ ".json") = some (.jsonDoc (stepRecord s t2 sv2 ev2 a2)) ∧
    ((log_step (log_step fs s t1 sv1 ev1 a1 p1) s t2 sv2 ev2 a2 p2).files.countP
        (fun p => p.1 == pad6 s ++ ".png")) = 1 ∧
    ((log_step (log_step fs s t1 sv1 ev1 a1 p1) s t2 sv2 ev2 a2 p2).files.countP
        (fun p => p.1 == pad6 s ++ ".json")) = 1 ∧
    ∀ name, name ≠ pad6 s ++ ".png" → name ≠ pad6 s ++ ".json" →
      lookupFile (log_step (log_step fs s t1 sv1 ev1 a1 p1) s t2 sv2 ev2 a2 p2) name =
        lookupFile fs name := by
  have hne := png_json_names_ne (pad6 s)
  refine ⟨?_, ?_, ?_, ?_, ?_⟩
  · unfold log_step
    rw [setFile_lookup_other _ _ _ _ hne, setFile_lookup_same]
  · unfold log_step
    rw [setFile_lookup_same]
  · unfold log_step
    rw [setFile_count_ne _ _ _ _ hne, setFile_count_same]
  · unfold log_step
    rw [setFile_count_same]
  · intro name h1 h2
    unfold log_step
    rw [setFile_lookup_other _ _ _ _ h2, setFile_lookup_other _ _ _ _ h1,
      setFile_lookup_other _ _ _ _ h2, setFile_lookup_other _ _ _ _ h1]

/-- C8 witness: two writes at index 1 on the empty directory; the image
holds the later bytes and an unrelated name stays absent. -/
theorem log_step_last_write_wins_witness :
    lookupFile (log_step (log_step ⟨[]⟩ 1 "t1" .null [] (.wait (safe_fallback_action "a")) [0])
        1 "t2" .null [] (.wait (safe_fallback_action "b")) [1])
      (pad6 1 ++ ".png") = some (.png [1]) ∧
    lookupFile (log_step (log_step ⟨[]⟩ 1 "t1" .null [] (.wait (safe_fallback_action "a")) [0])
        1 "t2" .null [] (.wait (safe_fallback_action "b")) [1])
      "other.txt" = lookupFile (⟨[]⟩ : FS) "other.txt" :=
  ⟨(log_step_last_write_wins ⟨[]⟩ 1 "t1" "t2" .null .null [] []
      (.wait (safe_fallback_action "a")) (.wait (safe_fallback_action "b")) [0] [1]).1,
   (log_step_last_write_wins ⟨[]⟩ 1 "t1" "t2" .null .null [] []
      (.wait (safe_fallback_action "a")) (.wait (safe_fallback_action "b")) [0] [1]).2.2.2.2
     "other.txt" (by decide) (by decide)⟩

/-! ## Status snapshots (`AgentController.get_status`)

`get_status` returns `AgentStatus(**json.loads(json.dumps(self._status.__dict__)))`.
To state that the snapshot is a deep, independent copy we model the Python
object heap explicitly: dicts/lists are mutable nodes addressed by
position, primitives are immutable leaves.  `json.dumps` walks the graph
(`dumps`), `json.loads` allocates a fresh tree at the top of the heap
(`loads`), and mutation is `Heap.write`. -/

/-- Immutable JSON-serializable Python primitives. -/
inductive JPrim where
  | null : JPrim
  | pb (b : Bool) : JPrim
  | pn (q : ℚ) : JPrim
  | ps (s : String) : JPrim

/-- A heap node: a primitive, a list object, or a dict object (references
by address). -/
inductive HNode where
  | prim (p : JPrim) : HNode
  | arr (elems : List ℕ) : HNode
  | obj (fields : List (String × ℕ)) : HNode

/-- The object heap; node `a` lives at `cells[a]`, addresses at or above
`cells.length` are unallocated. -/
structure Heap where
  cells : List HNode

def Heap.size (h : Heap) : ℕ := h.cells.length

def Heap.node (h : Heap) (a : ℕ) : HNode := h.cells.getD a (.prim .null)

/-- In-place mutation of the object at `a` (assigning a status field,
or mutating a nested dict/list). -/
def Heap.write (h : Heap) (a : ℕ) (n : HNode) : Heap := ⟨h.cells.set a n⟩

def HNode.refs : HNode → List ℕ
  | .prim _ => []
  | .arr es => es
  | .obj fs => fs.map (·.2)

/-- A well-formed heap never references unallocated space. -/
def heapClosed (h : Heap) : Prop :=
  ∀ n ∈ h.cells, ∀ a ∈ n.refs, a < h.size

instance (h : Heap) : Decidable (heapClosed h) := by
  unfold heapClosed; infer_instance

def primJ : JPrim → JVal
  | .null => .null
  | .pb b => .bool b
  | .pn q => .num q
  | .ps s => .str s

mutual

/-- `json.dumps` of the graph rooted at `a`; the fuel bounds the traversal
(Python's recursion limit), a cycle or insufficient fuel gives `none`. -/
def dumps : ℕ → Heap → ℕ → Option JVal
  | 0, _, _ => none
  | f+1, h, a =>
    match h.node a with
    | .prim p => some (primJ p)
    | .arr es => (dumpsList f h es).map .arr
    | .obj fs => (dumpsFields f h fs).map .obj

def dumpsList : ℕ → Heap → List ℕ → Option (List JVal)
  | 0, _, _ => none
  | _+1, _, [] => some []
  | f+1, h, a :: rest => do
    pure ((← dumps f h a) :: (← dumpsList f h rest))

def dumpsFields : ℕ → Heap → List (String × ℕ) → Option (List (String × JVal))
  | 0, _, _ => none
  | _+1, _, [] => some []
  | f+1, h, (k, a) :: rest => do
    pure ((k, (← dumps f h a)) :: (← dumpsFields f h rest))

end

mutual

/-- `json.loads`: rebuild the document as freshly allocated objects on top
of the heap; returns the root address and the extended cell list. -/
def loads : ℕ → JVal → List HNode → Option (ℕ × List HNode)
  | 0, _, _ => none
  | _+1, .null, cells => some (cells.length, cells ++ [.prim .null])
  | _+1, .bool b, cells => some (cells.length, cells ++ [.prim (.pb b)])
  | _+1, .num q, cells => some (cells.length, cells ++ [.prim (.pn q)])
  | _+1, .str s, cells => some (cells.length, cells ++ [.prim (.ps s)])
  | f+1, .arr l, cells => do
    let (addrs, cells2) ← loadsList f l cells
    pure (cells2.length, cells2 ++ [.arr addrs])
  | f+1, .obj fs, cells => do
    let (prs, cells2) ← loadsFields f fs cells
    pure (cells2.length, cells2 ++ [.obj prs])

def loadsList : ℕ → List JVal → List HNode → Option (List ℕ × List HNode)
  | 0, _, _ => none
  | _+1, [], cells => some ([], cells)
  | f+1, v :: vs, cells => do
    let (a, cells2) ← loads f v cells
    let (rest, cells3) ← loadsList f vs cells2
    pure (a :: rest, cells3)

def loadsFields : ℕ → List (String × JVal) → List HNode →
    Option (List (String × ℕ) × List HNode)
  | 0, _, _ => none
  | _+1, [], cells => some ([], cells)
  | f+1, (k, v) :: vs, cells => do
    let (a, cells2) ← loads f v cells
    let (rest, cells3) ← loadsFields f vs cells2
    pure ((k, a) :: rest, cells3)

end

/-- `get_status`: serialize the status object graph, then rebuild it as a
fresh tree on top of the heap and hand out its root — the value copy the
caller receives.  (`loads` consumes fuel in the same pattern as `dumps`
produced the document, so the one budget serves both directions.) -/
def get_status (fuel : ℕ) (h : Heap) (root : ℕ) : Option (ℕ × Heap) := do
  let j ← dumps fuel h root
  let (a, cells) ← loads fuel j h.cells
  pure (a, ⟨cells⟩)

theorem getD_append_lt {α : Type} (l1 l2 : List α) (d : α) (i : ℕ)
    (h : i < l1.length) : (l1 ++ l2).getD i d = l1.getD i d := by
  induction l1 generalizing i with
  | nil => simp at h
  | cons x l ih =>
    cases i with
    | zero => rfl
    | succ i => exact ih i (by simpa using h)

theorem getD_append_at {α : Type} (l1 l2 : List α) (d : α) (k : ℕ) :
    (l1 ++ l2).getD (l1.length + k) d = l2.getD k d := by
  induction l1 with
  | nil => simp
  | cons x l ih => simpa [Nat.succ_add] using ih

theorem getD_set_ne {α : Type} (l : List α) (i j : ℕ) (x : α) (d : α)
    (h : i ≠ j) : (l.set i x).getD j d = l.getD j d := by
  induction l generalizing i j with
  | nil => rfl
  | cons y l ih =>
    cases i with
    | zero =>
      cases j with
      | zero => exact absurd rfl h
      | succ j => rfl
    | succ i =>
      cases j with
      | zero => rfl
      | succ j => exact ih i j (by omega)

/-- Frame lemma: `dumps` only reads addresses in a set `S` that is closed
under node references and contains the root, so two heaps agreeing on `S`
serialize such roots identically. -/
theorem dumps_agree (S : ℕ → Prop) (h1 h2 : Heap)
    (hag : ∀ a, S a → h1.node a = h2.node a)
    (hcl : ∀ a, S a → ∀ r ∈ (h1.node a).refs, S r) :
    ∀ f, (∀ a, S a → dumps f h1 a = dumps f h2 a) ∧
      (∀ es, (∀ a ∈ es, S a) → dumpsList f h1 es = dumpsList f h2 es) ∧
      (∀ fs, (∀ p ∈ fs, S p.2) → dumpsFields f h1 fs = dumpsFields f h2 fs) := by
  intro f
  induction f with
  | zero => exact ⟨fun _ _ => rfl, fun _ _ => rfl, fun _ _ => rfl⟩
  | succ f ih =>
    obtain ⟨ihd, ihl, ihf⟩ := ih
    refine ⟨?_, ?_, ?_⟩
    · intro a hS
      have hn := hag a hS
      have hrefs := hcl a hS
      show dumps (f+1) h1 a = dumps (f+1) h2 a
      simp only [dumps, ← hn]
      cases hv : h1.node a with
      | prim p => rfl
      | arr es =>
        dsimp only
        rw [ihl es (fun r hr => hrefs r (by rw [hv]; exact hr))]
      | obj fs =>
        dsimp only
        rw [ihf fs (fun p hp => hrefs p.2
          (by rw [hv]; exact List.mem_map_of_mem (·.2) hp))]
    · intro es hes
      cases es with
      | nil => rfl
      | cons a rest =>
        show dumpsList (f+1) h1 (a :: rest) = dumpsList (f+1) h2 (a :: rest)
        simp only [dumpsList]
        rw [ihd a (hes a (by simp)), ihl rest (fun r hr => hes r (by simp [hr]))]
    · intro fs hfs
      cases fs with
      | nil => rfl
      | cons p rest =>
        show dumpsFields (f+1) h1 (p :: rest) = dumpsFields (f+1) h2 (p :: rest)
        cases p with
        | mk k a =>
          simp only [dumpsFields]
          rw [ihd a (hfs (k, a) (by simp)), ihf rest (fun q hq => hfs q (by simp [hq]))]

theorem getD_ge {α : Type} (l : List α) (d : α) (i : ℕ) (h : l.length ≤ i) :
    l.getD i d = d := by
  induction l generalizing i with
  | nil => cases i <;> rfl
  | cons x l ih =>
    cases i with
    | zero => simp at h
    | succ i => exact ih i (by simpa using h)

/-- All nodes of `cs` at addresses ≥ `base` reference only `[base, |cs|)`. -/
def regionClosed (base : ℕ) (cs : List HNode) : Prop :=
  ∀ i, base ≤ i → ∀ r ∈ (cs.getD i (.prim .null)).refs, base ≤ r ∧ r < cs.length

theorem regionClosed_snoc (base : ℕ) (cells2 : List HNode) (nd : HNode)
    (hcl : regionClosed base cells2)
    (hnd : ∀ r ∈ nd.refs, base ≤ r ∧ r < cells2.length) :
    regionClosed base (cells2 ++ [nd]) := by
  intro i hi r hr
  by_cases hlt : i < cells2.length
  · rw [getD_append_lt _ _ _ _ hlt] at hr
    have hb := hcl i hi r hr
    refine ⟨hb.1, ?_⟩
    simp only [List.length_append, List.length_cons, List.length_nil]
    omega
  · by_cases heq : i = cells2.length
    · subst heq
      have : (cells2 ++ [nd]).getD cells2.length (.prim .null) = nd := by
        simp
      rw [this] at hr
      have hb := hnd r hr
      refine ⟨hb.1, ?_⟩
      simp only [List.length_append, List.length_cons, List.length_nil]
      omega
    · have hge : (cells2 ++ [nd]).length ≤ i := by
        simp only [List.length_append, List.length_cons, List.length_nil]
        omega
      rw [getD_ge _ _ _ hge] at hr
      simp [HNode.refs] at hr

theorem regionClosed_trans (base : ℕ) (cellsA cellsB : List HNode)
    (hAB : ∃ d, cellsB = cellsA ++ d) (hlenA : base ≤ cellsA.length)
    (hclA : regionClosed base cellsA) (hclB : regionClosed cellsA.length cellsB) :
    regionClosed base cellsB := by
  intro i hi r hr
  obtain ⟨d, rfl⟩ := hAB
  by_cases hlt : i < cellsA.length
  · rw [getD_append_lt _ _ _ _ hlt] at hr
    have hb := hclA i hi r hr
    refine ⟨hb.1, ?_⟩
    simp only [List.length_append]
    omega
  · have hb := hclB i (by omega) r hr
    exact ⟨by omega, hb.2⟩

/-- What a successful `loads` guarantees: the heap is only extended, the
root is a fresh address, the new region references only itself, and
`dumps` of the copy (with the same fuel budget, under any later heap
extension) reproduces the document. -/
theorem loads_spec : ∀ f : ℕ,
    (∀ v cells root cells2, loads f v cells = some (root, cells2) →
      (∃ d, cells2 = cells ++ d) ∧ cells.length ≤ root ∧ root < cells2.length ∧
      regionClosed cells.length cells2 ∧
      (∀ ext, dumps f ⟨cells2 ++ ext⟩ root = some v)) ∧
    (∀ vs cells addrs cells2, loadsList f vs cells = some (addrs, cells2) →
      (∃ d, cells2 = cells ++ d) ∧
      (∀ a ∈ addrs, cells.length ≤ a ∧ a < cells2.length) ∧
      regionClosed cells.length cells2 ∧
      (∀ ext, dumpsList f ⟨cells2 ++ ext⟩ addrs = some vs)) ∧
    (∀ vs cells prs cells2, loadsFields f vs cells = some (prs, cells2) →
      (∃ d, cells2 = cells ++ d) ∧
      (∀ p ∈ prs, cells.length ≤ p.2 ∧ p.2 < cells2.length) ∧
      regionClosed cells.length cells2 ∧
      (∀ ext, dumpsFields f ⟨cells2 ++ ext⟩ prs = some vs)) := by
  intro f
  induction f with
  | zero =>
    refine ⟨?_, ?_, ?_⟩ <;> (intro v cells root cells2 h; cases h)
  | succ f ih =>
    obtain ⟨ihv, ihl, ihf⟩ := ih
    have hprim : ∀ (cells : List HNode) (nd : HNode) (v : JVal),
        nd.refs = [] →
        (∀ ext, Heap.node ⟨(cells ++ [nd]) ++ ext⟩ cells.length = nd) →
        (∀ w, w = v) → True := fun _ _ _ _ _ _ => trivial
    have hnodeAt : ∀ (cells : List HNode) (nd : HNode) (ext : List HNode),
        Heap.node ⟨(cells ++ [nd]) ++ ext⟩ cells.length = nd := by
      intro cells nd ext
      show ((cells ++ [nd]) ++ ext).getD cells.length (.prim .null) = nd
      rw [List.append_assoc]
      have := getD_append_at cells ([nd] ++ ext) (.prim .null) 0
      simpa using this
    have hclPrim : ∀ (cells : List HNode) (nd : HNode), nd.refs = [] →
        regionClosed cells.length (cells ++ [nd]) := by
      intro cells nd hrefs
      have : regionClosed cells.length cells := by
        intro i hi r hr
        rw [getD_ge _ _ _ hi] at hr
        simp [HNode.refs] at hr
      exact regionClosed_snoc _ _ _ this (by simp [hrefs])
    refine ⟨?_, ?_, ?_⟩
    · intro v cells root cells2 h
      cases v with
      | null =>
        cases h
        refine ⟨⟨_, rfl⟩, le_refl _, by simp, hclPrim _ _ rfl, ?_⟩
        intro ext
        show dumps (f+1) _ _ = _
        simp only [dumps, hnodeAt]
        rfl
      | bool b =>
        cases h
        refine ⟨⟨_, rfl⟩, le_refl _, by simp, hclPrim _ _ rfl, ?_⟩
        intro ext
        show dumps (f+1) _ _ = _
        simp only [dumps, hnodeAt]
        rfl
      | num q =>
        cases h
        refine ⟨⟨_, rfl⟩, le_refl _, by simp, hclPrim _ _ rfl, ?_⟩
        intro ext
        show dumps (f+1) _ _ = _
        simp only [dumps, hnodeAt]
        rfl
      | str s =>
        cases h
        refine ⟨⟨_, rfl⟩, le_refl _, by simp, hclPrim _ _ rfl, ?_⟩
        intro ext
        show dumps (f+1) _ _ = _
        simp only [dumps, hnodeAt]
        rfl
      | arr l =>
        revert h
        show loads (f+1) (.arr l) cells = _ → _
        simp only [loads]
        cases hll : loadsList f l cells with
        | none => intro h; cases h
        | some pr =>
          obtain ⟨addrs, cells2'⟩ := pr
          intro h
          simp only [Option.bind_eq_bind, Option.some_bind, Option.pure_def,
            Option.some.injEq] at h
          obtain ⟨rfl, rfl⟩ := (Prod.mk.injEq _ _ _ _).mp h.symm
          obtain ⟨⟨d1, hd1⟩, haddr, hcl1, hrt1⟩ := ihl l cells addrs cells2' hll
          refine ⟨⟨d1 ++ [.arr addrs], by rw [hd1, List.append_assoc]⟩, ?_, by simp, ?_, ?_⟩
          · have : cells.length ≤ cells2'.length := by rw [hd1]; simp
            exact this
          · refine regionClosed_snoc _ _ _ hcl1 ?_
            intro r hr
            exact haddr r hr
          · intro ext
            show dumps (f+1) _ _ = _
            simp only [dumps, hnodeAt]
            have h2 := hrt1 ([HNode.arr addrs] ++ ext)
            rw [← List.append_assoc] at h2
            rw [h2]
            rfl
      | obj l =>
        revert h
        show loads (f+1) (.obj l) cells = _ → _
        simp only [loads]
        cases hll : loadsFields f l cells with
        | none => intro h; cases h
        | some pr =>
          obtain ⟨prs, cells2'⟩ := pr
          intro h
          simp only [Option.bind_eq_bind, Option.some_bind, Option.pure_def,
            Option.some.injEq] at h
          obtain ⟨rfl, rfl⟩ := (Prod.mk.injEq _ _ _ _).mp h.symm
          obtain ⟨⟨d1, hd1⟩, haddr, hcl1, hrt1⟩ := ihf l cells prs cells2' hll
          refine ⟨⟨d1 ++ [.obj prs], by rw [hd1, List.append_assoc]⟩, ?_, by simp, ?_, ?_⟩
          · have : cells.length ≤ cells2'.length := by rw [hd1]; simp
            exact this
          · refine regionClosed_snoc _ _ _ hcl1 ?_
            intro r hr
            simp only [HNode.refs, List.mem_map] at hr
            obtain ⟨p, hp, rfl⟩ := hr
            exact haddr p hp
          · intro ext
            show dumps (f+1) _ _ = _
            simp only [dumps, hnodeAt]
            have h2 := hrt1 ([HNode.obj prs] ++ ext)
            rw [← List.append_assoc] at h2
            rw [h2]
            rfl
    · intro vs cells addrs cells2 h
      cases vs with
      | nil =>
        cases h
        refine ⟨⟨[], by simp⟩, by simp, ?_, ?_⟩
        · intro i hi r hr
          rw [getD_ge _ _ _ hi] at hr
          simp [HNode.refs] at hr
        · intro ext
          rfl
      | cons v rest =>
        rw [show loadsList (f+1) (v :: rest) cells = (loads f v cells).bind
            (fun pr1 => (loadsList f rest pr1.2).bind
              (fun pr2 => some (pr1.1 :: pr2.1, pr2.2))) from rfl] at h
        cases hlv : loads f v cells with
        | none => rw [hlv] at h; cases h
        | some pr1 =>
          obtain ⟨a1, cellsA⟩ := pr1
          rw [hlv] at h
          simp only [Option.some_bind] at h
          cases hlr : loadsList f rest cellsA with
          | none => rw [hlr] at h; cases h
          | some pr2 =>
            obtain ⟨rest1, cellsB⟩ := pr2
            rw [hlr] at h
            simp only [Option.some_bind, Option.some.injEq, Prod.mk.injEq] at h
            obtain ⟨h1, h2⟩ := h
            subst h1
            subst h2
            obtain ⟨⟨d1, hd1⟩, ha1, hb1, hcl1, hrt1⟩ := ihv v cells a1 cellsA hlv
            obtain ⟨⟨d2, hd2⟩, ha2, hcl2, hrt2⟩ := ihl rest cellsA rest1 cellsB hlr
            have hlenA : cells.length ≤ cellsA.length := by rw [hd1]; simp
            have hlenB : cellsA.length ≤ cellsB.length := by rw [hd2]; simp
            refine ⟨⟨d1 ++ d2, by rw [hd2, hd1, List.append_assoc]⟩, ?_, ?_, ?_⟩
            · intro a ha
              rcases List.mem_cons.mp ha with rfl | ha
              · exact ⟨ha1, by omega⟩
              · have := ha2 a ha
                exact ⟨by omega, this.2⟩
            · exact regionClosed_trans _ _ _ ⟨d2, hd2⟩ hlenA hcl1 hcl2
            · intro ext
              show dumpsList (f+1) _ _ = _
              simp only [dumpsList, Option.bind_eq_bind, Option.pure_def]
              have h1 : dumps f ⟨cellsB ++ ext⟩ a1 = some v := by
                rw [hd2, List.append_assoc]
                exact hrt1 (d2 ++ ext)
              rw [h1, hrt2 ext]
              rfl
    · intro vs cells prs cells2 h
      cases vs with
      | nil =>
        cases h
        refine ⟨⟨[], by simp⟩, by simp, ?_, ?_⟩
        · intro i hi r hr
          rw [getD_ge _ _ _ hi] at hr
          simp [HNode.refs] at hr
        · intro ext
          rfl
      | cons kv rest =>
        obtain ⟨k, v⟩ := kv
        rw [show loadsFields (f+1) ((k, v) :: rest) cells = (loads f v cells).bind
            (fun pr1 => (loadsFields f rest pr1.2).bind
              (fun pr2 => some ((k, pr1.1) :: pr2.1, pr2.2))) from rfl] at h
        cases hlv : loads f v cells with
        | none => rw [hlv] at h; cases h
        | some pr1 =>
          obtain ⟨a1, cellsA⟩ := pr1
          rw [hlv] at h
          simp only [Option.some_bind] at h
          cases hlr : loadsFields f rest cellsA with
          | none => rw [hlr] at h; cases h
          | some pr2 =>
            obtain ⟨rest1, cellsB⟩ := pr2
            rw [hlr] at h
            simp only [Option.some_bind, Option.some.injEq, Prod.mk.injEq] at h
            obtain ⟨h1, h2⟩ := h
            subst h1
            subst h2
            obtain ⟨⟨d1, hd1⟩, ha1, hb1, hcl1, hrt1⟩ := ihv v cells a1 cellsA hlv
            obtain ⟨⟨d2, hd2⟩, ha2, hcl2, hrt2⟩ := ihf rest cellsA rest1 cellsB hlr
            have hlenA : cells.length ≤ cellsA.length := by rw [hd1]; simp
            have hlenB : cellsA.length ≤ cellsB.length := by rw [hd2]; simp
            refine ⟨⟨d1 ++ d2, by rw [hd2, hd1, List.append_assoc]⟩, ?_, ?_, ?_⟩
            · intro p hp
              rcases List.mem_cons.mp hp with rfl | hp
              · exact ⟨ha1, by omega⟩
              · have := ha2 p hp
                exact ⟨by omega, this.2⟩
            · exact regionClosed_trans _ _ _ ⟨d2, hd2⟩ hlenA hcl1 hcl2
            · intro ext
              show dumpsFields (f+1) _ _ = _
              simp only [dumpsFields, Option.bind_eq_bind, Option.pure_def]
              have h1 : dumps f ⟨cellsB ++ ext⟩ a1 = some v := by
                rw [hd2, List.append_assoc]
                exact hrt1 (d2 ++ ext)
              rw [h1, hrt2 ext]
              rfl

/-- `loads` consumes fuel in the same pattern in which `dumps` produced the
document, so a successful serialization can always be re-loaded on the same
budget. -/
theorem dumps_loads_some : ∀ f : ℕ,
    (∀ (h : Heap) a j, dumps f h a = some j →
      ∀ cells, ∃ r cs, loads f j cells = some (r, cs)) ∧
    (∀ (h : Heap) es js, dumpsList f h es = some js →
      ∀ cells, ∃ rs cs, loadsList f js cells = some (rs, cs)) ∧
    (∀ (h : Heap) fs js, dumpsFields f h fs = some js →
      ∀ cells, ∃ rs cs, loadsFields f js cells = some (rs, cs)) := by
  intro f
  induction f with
  | zero => refine ⟨?_, ?_, ?_⟩ <;> (intro h a j hd; cases hd)
  | succ f ih =>
    obtain ⟨ihd, ihl, ihf⟩ := ih
    refine ⟨?_, ?_, ?_⟩
    · intro h a j hd cells
      revert hd
      show dumps (f+1) h a = some j → _
      simp only [dumps]
      cases hn : h.node a with
      | prim p =>
        intro hd
        cases hd
        cases p <;> exact ⟨_, _, rfl⟩
      | arr es =>
        dsimp only
        cases hdl : dumpsList f h es with
        | none => intro hd; cases hd
        | some l =>
          intro hd
          cases hd
          obtain ⟨rs, cs, hl⟩ := ihl h es l hdl cells
          refine ⟨cs.length, cs ++ [.arr rs], ?_⟩
          show loads (f+1) (.arr l) cells = _
          simp only [loads]
          rw [hl]
          rfl
      | obj fs =>
        dsimp only
        cases hdl : dumpsFields f h fs with
        | none => intro hd; cases hd
        | some l =>
          intro hd
          cases hd
          obtain ⟨rs, cs, hl⟩ := ihf h fs l hdl cells
          refine ⟨cs.length, cs ++ [.obj rs], ?_⟩
          show loads (f+1) (.obj l) cells = _
          simp only [loads]
          rw [hl]
          rfl
    · intro h es js hd cells
      cases es with
      | nil =>
        cases hd
        exact ⟨[], cells, rfl⟩
      | cons a rest =>
        rw [show dumpsList (f+1) h (a :: rest) = (dumps f h a).bind
            (fun j1 => (dumpsList f h rest).bind
              (fun r => some (j1 :: r))) from rfl] at hd
        cases hda : dumps f h a with
        | none => rw [hda] at hd; cases hd
        | some j1 =>
          rw [hda] at hd
          simp only [Option.some_bind] at hd
          cases hdr : dumpsList f h rest with
          | none => rw [hdr] at hd; cases hd
          | some js1 =>
            rw [hdr] at hd
            simp only [Option.some_bind, Option.some.injEq] at hd
            subst hd
            obtain ⟨r1, cs1, hl1⟩ := ihd h a j1 hda cells
            obtain ⟨rs, cs2, hl2⟩ := ihl h rest js1 hdr cs1
            refine ⟨r1 :: rs, cs2, ?_⟩
            rw [show loadsList (f+1) (j1 :: js1) cells = (loads f j1 cells).bind
                (fun p1 => (loadsList f js1 p1.2).bind
                  (fun p2 => some (p1.1 :: p2.1, p2.2))) from rfl, hl1]
            simp [hl2]
    · intro h fs js hd cells
      cases fs with
      | nil =>
        cases hd
        exact ⟨[], cells, rfl⟩
      | cons p rest =>
        obtain ⟨k, a⟩ := p
        rw [show dumpsFields (f+1) h ((k, a) :: rest) = (dumps f h a).bind
            (fun j1 => (dumpsFields f h rest).bind
              (fun r => some ((k, j1) :: r))) from rfl] at hd
        cases hda : dumps f h a with
        | none => rw [hda] at hd; cases hd
        | some j1 =>
          rw [hda] at hd
          simp only [Option.some_bind] at hd
          cases hdr : dumpsFields f h rest with
          | none => rw [hdr] at hd; cases hd
          | some js1 =>
            rw [hdr] at hd
            simp only [Option.some_bind, Option.some.injEq] at hd
            subst hd
            obtain ⟨r1, cs1, hl1⟩ := ihd h a j1 hda cells
            obtain ⟨rs, cs2, hl2⟩ := ihf h rest js1 hdr cs1
            refine ⟨(k, r1) :: rs, cs2, ?_⟩
            rw [show loadsFields (f+1) ((k, j1) :: js1) cells = (loads f j1 cells).bind
                (fun p1 => (loadsFields f js1 p1.2).bind
                  (fun p2 => some ((k, p1.1) :: p2.1, p2.2))) from rfl, hl1]
            simp [hl2]

theorem getD_mem_of_lt {α : Type} (l : List α) (d : α) (i : ℕ) (h : i < l.length) :
    l.getD i d ∈ l := by
  induction l generalizing i with
  | nil => simp at h
  | cons x l ih =>
    cases i with
    | zero => exact List.mem_cons_self x l
    | succ i => exact List.mem_cons_of_mem x (ih i (by simpa using h))

/-- C7: whenever serialization succeeds, `get_status` returns a snapshot
that (i) denotes the same value as the live status, (ii) keeps denoting it
after *any* mutation of any pre-existing object — the status object itself
or its nested state/action dicts — and (iii) leaves the live status's
denotation untouched under any mutation of the snapshot's objects. -/
theorem get_status_snapshot (h : Heap) (root : ℕ) (fuel : ℕ) (j : JVal)
    (hcl : heapClosed h) (hroot : root < h.size)
    (hd : dumps fuel h root = some j) :
    ∃ snap h2,
      get_status fuel h root = some (snap, h2) ∧
      (∃ d, h2.cells = h.cells ++ d) ∧
      dumps fuel h2 snap = some j ∧
      (∀ a n, a < h.size → dumps fuel (h2.write a n) snap = some j) ∧
      (∀ a n, h.size ≤ a → dumps fuel (h2.write a n) root = some j) := by
  obtain ⟨r, cs, hl⟩ := (dumps_loads_some fuel).1 h root j hd h.cells
  obtain ⟨⟨d, hdd⟩, hr1, hr2, hrc, hrt⟩ := (loads_spec fuel).1 j h.cells r cs hl
  have hget : get_status fuel h root = some (r, ⟨cs⟩) := by
    rw [show get_status fuel h root = (dumps fuel h root).bind
        (fun j0 => (loads fuel j0 h.cells).bind
          (fun pr => some (pr.1, ⟨pr.2⟩))) from rfl, hd]
    simp [hl]
  have hdump2 : dumps fuel (⟨cs⟩ : Heap) r = some j := by
    have h0 := hrt []
    rw [List.append_nil] at h0
    exact h0
  refine ⟨r, ⟨cs⟩, hget, ⟨d, hdd⟩, hdump2, ?_, ?_⟩
  · intro a n ha
    have ha' : a < h.cells.length := ha
    have hag : ∀ x, h.cells.length ≤ x →
        Heap.node ⟨cs⟩ x = Heap.node (Heap.write ⟨cs⟩ a n) x := by
      intro x hx
      show cs.getD x (.prim .null) = (cs.set a n).getD x (.prim .null)
      exact (getD_set_ne cs a x n (.prim .null) (by omega)).symm
    have hclS : ∀ x, h.cells.length ≤ x →
        ∀ rr ∈ (Heap.node ⟨cs⟩ x).refs, h.cells.length ≤ rr := by
      intro x hx rr hrr
      exact (hrc x hx rr hrr).1
    have hfr := ((dumps_agree (fun x => h.cells.length ≤ x) ⟨cs⟩
        (Heap.write ⟨cs⟩ a n) hag hclS) fuel).1 r hr1
    rw [← hfr]
    exact hdump2
  · intro a n ha
    have ha' : h.cells.length ≤ a := ha
    have hag : ∀ x, x < h.cells.length →
        Heap.node h x = Heap.node (Heap.write ⟨cs⟩ a n) x := by
      intro x hx
      show h.cells.getD x (.prim .null) = (cs.set a n).getD x (.prim .null)
      rw [getD_set_ne cs a x n (.prim .null) (by omega), hdd,
        getD_append_lt _ _ _ _ hx]
    have hclS : ∀ x, x < h.cells.length →
        ∀ rr ∈ (Heap.node h x).refs, rr < h.cells.length := by
      intro x hx rr hrr
      exact hcl _ (getD_mem_of_lt _ _ _ hx) rr hrr
    have hfr := ((dumps_agree (fun x => x < h.cells.length) h
        (Heap.write ⟨cs⟩ a n) hag hclS) fuel).1 root hroot
    rw [← hfr]
    exact hd

/-- A small live status heap: the status object (address 0) with a `running`
flag (address 1) and a nested `last_state` dict (address 2) holding a
string (address 3). -/
def heap0 : Heap :=
  ⟨[.obj [("running", 1), ("last_state", 2)], .prim (.pb true),
    .obj [("hp", 3)], .prim (.ps "ok")]⟩

/-- The serialized form of `heap0`'s status object. -/
def jstat : JVal :=
  .obj [("running", .bool true), ("last_state", .obj [("hp", .str "ok")])]

/-- C7 witness: on the concrete heap, `get_status` yields a snapshot that
still denotes the original document under every mutation of the live
status's objects, and mutating the snapshot's region leaves the live
status's denotation intact. -/
theorem get_status_snapshot_witness :
    ∃ snap h2,
      get_status 10 heap0 0 = some (snap, h2) ∧
      (∃ d, h2.cells = heap0.cells ++ d) ∧
      dumps 10 h2 snap = some jstat ∧
      (∀ a n, a < heap0.size → dumps 10 (h2.write a n) snap = some jstat) ∧
      (∀ a n, heap0.size ≤ a → dumps 10 (h2.write a n) 0 = some jstat) :=
  get_status_snapshot heap0 0 10 jstat (by decide) (by decide) rfl

/-! ## The sliding-window guarantee of the rate limiter (C1)

A trace is a list of steps `(now, rec)`: `now` is the instant `_rate_limit`
reads `time.time()`, `rec` the instant the successfully executed action is
recorded by `_action_times.append(time.time())`.  Validity captures exactly
what the code guarantees: permits happen in order (`t0 ≤ now`), and the
record cannot happen before the permit plus the sleep `_rate_limit`
demanded (`now + sleep ≤ rec`) — execution time only delays it further. -/

/-- Trace validity from buffer `buf` at time `t0`. -/
def stepsOk (M : ℤ) : List ℚ → ℚ → List (ℚ × ℚ) → Prop
  | _, _, [] => True
  | buf, t0, (now, rec) :: rest =>
    t0 ≤ now ∧ now + (ratePermit M now buf).2 ≤ rec ∧
      stepsOk M (dequeAppend 1200 (ratePermit M now buf).1 rec) rec rest

/-- Genericity: at no permit instant does a buffered timestamp sit at
*exactly* the 60-second boundary.  (The drop condition `now - t > 60` is
strict while the sleep runs to exactly the boundary, so boundary
coincidences — a measure-zero set of real timings — can defeat the bound;
see the counterexample.) -/
def stepsGen (M : ℤ) : List ℚ → ℚ → List (ℚ × ℚ) → Prop
  | _, _, [] => True
  | buf, _, (now, rec) :: rest =>
    (∀ t ∈ buf, now - t ≠ 60) ∧
      stepsGen M (dequeAppend 1200 (ratePermit M now buf).1 rec) rec rest

/-- The loop invariant tying the recorded history to the live deque:
the history is sorted and bounded by the current time, the deque is a
suffix of the history whose dropped elements are stale, and any two
records `M` apart are at least 60 seconds apart. -/
structure RateInv (M : ℕ) (hist buf : List ℚ) (t0 : ℚ) : Prop where
  sorted : hist.Pairwise (· ≤ ·)
  bounded : ∀ x ∈ hist, x ≤ t0
  suffix : ∃ k, ∃ hk : k ≤ hist.length, buf = hist.drop k ∧
    ∀ i (hik : i < k), hist.get ⟨i, by omega⟩ + 60 ≤ t0
  sparse : ∀ i (hiM : i + M < hist.length),
    hist.get ⟨i, by omega⟩ + 60 ≤ hist.get ⟨i + M, hiM⟩

/-- `dropWhile` removes a prefix all of whose elements satisfy the
predicate, and its result either is empty or starts with a failing
element. -/
theorem dropWhile_split {α : Type} (p : α → Bool) (l : List α) :
    ∃ k, k ≤ l.length ∧ l.dropWhile p = l.drop k ∧
      (∀ i (hik : i < k), ∃ hil : i < l.length, p (l.get ⟨i, hil⟩) = true) ∧
      (∀ x xs, l.dropWhile p = x :: xs → p x = false) := by
  induction l with
  | nil =>
    refine ⟨0, by simp, rfl, fun i h => absurd h (by omega), ?_⟩
    intro x xs h
    cases h
  | cons a l ih =>
    by_cases hpa : p a = true
    · obtain ⟨k, hk1, hk2, hk3, hk4⟩ := ih
      refine ⟨k + 1, by simp; omega, by simp [List.dropWhile_cons, hpa, hk2], ?_, ?_⟩
      · intro i hik
        cases i with
        | zero => exact ⟨by simp, hpa⟩
        | succ i =>
          obtain ⟨hil, hp⟩ := hk3 i (by omega)
          exact ⟨by simp; omega, hp⟩
      · intro x xs h
        rw [List.dropWhile_cons, if_pos hpa] at h
        exact hk4 x xs h
    · refine ⟨0, by simp, by simp [List.dropWhile_cons, hpa], fun i h => absurd h (by omega), ?_⟩
      intro x xs h
      rw [List.dropWhile_cons, if_neg hpa] at h
      cases h
      simpa using hpa

/-- A count of `k + 1` matches forces a match at index ≥ `k`. -/
theorem countP_late_index {α : Type} (p : α → Bool) :
    ∀ (l : List α) (k : ℕ), k + 1 ≤ l.countP p →
      ∃ j, ∃ hj : j < l.length, k ≤ j ∧ p (l.get ⟨j, hj⟩) = true := by
  intro l
  induction l with
  | nil => intro k h; simp [List.countP_nil] at h
  | cons a l ih =>
    intro k h
    by_cases hpa : p a = true
    · rw [List.countP_cons_of_pos p l hpa] at h
      cases k with
      | zero => exact ⟨0, by simp, le_refl 0, hpa⟩
      | succ k =>
        obtain ⟨j, hj, hkj, hpj⟩ := ih k (by omega)
        exact ⟨j + 1, by simp; omega, by omega, hpj⟩
    · rw [List.countP_cons_of_neg p l (by simpa using hpa)] at h
      obtain ⟨j, hj, hkj, hpj⟩ := ih k h
      exact ⟨j + 1, by simp; omega, by omega, hpj⟩

/-- `m + 1` matches force two matches at least `m` indices apart. -/
theorem countP_two_indices {α : Type} (p : α → Bool) (m : ℕ) :
    ∀ l : List α, m + 1 ≤ l.countP p →
      ∃ i j, ∃ hi : i < l.length, ∃ hj : j < l.length, i + m ≤ j ∧
        p (l.get ⟨i, hi⟩) = true ∧ p (l.get ⟨j, hj⟩) = true := by
  intro l
  induction l with
  | nil => intro h; simp [List.countP_nil] at h
  | cons a l ih =>
    intro h
    by_cases hpa : p a = true
    · rw [List.countP_cons_of_pos p l hpa] at h
      cases m with
      | zero => exact ⟨0, 0, by simp, by simp, by omega, hpa, hpa⟩
      | succ m =>
        obtain ⟨j, hj, hkj, hpj⟩ := countP_late_index p l m (by omega)
        exact ⟨0, j + 1, by simp, by simp; omega, by omega, hpa, hpj⟩
    · rw [List.countP_cons_of_neg p l (by simpa using hpa)] at h
      obtain ⟨i, j, hi, hj, hij, hpi, hpj⟩ := ih h
      exact ⟨i + 1, j + 1, by simp; omega, by simp; omega, by omega, hpi, hpj⟩

/-- Sorted + `M`-sparse lists put at most `M` elements in any half-open
trailing window `(T − 60, T]`. -/
theorem window_count (M : ℕ) (l : List ℚ)
    (hsort : l.Pairwise (· ≤ ·))
    (hsp : ∀ i, ∀ hiM : i + M < l.length,
      l.get ⟨i, by omega⟩ + 60 ≤ l.get ⟨i + M, hiM⟩)
    (T : ℚ) :
    l.countP (fun t => decide (T - 60 < t) && decide (t ≤ T)) ≤ M := by
  by_contra hcon
  push_neg at hcon
  obtain ⟨i, j, hi, hj, hij, hpi, hpj⟩ :=
    countP_two_indices (fun t => decide (T - 60 < t) && decide (t ≤ T)) M l hcon
  simp only [Bool.and_eq_true, decide_eq_true_eq] at hpi hpj
  have hiM : i + M < l.length := by omega
  have hsp' := hsp i hiM
  have hmono : l.get ⟨i + M, hiM⟩ ≤ l.get ⟨j, hj⟩ := by
    rcases Nat.lt_or_ge (i + M) j with hlt | hge
    · exact List.pairwise_iff_get.mp hsort ⟨i + M, hiM⟩ ⟨j, hj⟩ hlt
    · have : i + M = j := by omega
      subst this
      exact le_refl _
  have h1 := hpi.1
  have h2 := hpj.2
  linarith

theorem get_congr {α : Type} (l : List α) (i j : ℕ) (hi : i < l.length)
    (hj : j < l.length) (h : i = j) : l.get ⟨i, hi⟩ = l.get ⟨j, hj⟩ := by
  subst h
  rfl

/-- One permit/record step preserves the rate-limiter invariant (for a
positive maximum within the deque capacity, at generic timings). -/
theorem rate_step (M : ℕ) (hM1 : 1 ≤ M) (hM2 : M ≤ 1200)
    (hist buf : List ℚ) (t0 now rec : ℚ)
    (inv : RateInv M hist buf t0)
    (hnow : t0 ≤ now)
    (hgen : ∀ t ∈ buf, now - t ≠ 60)
    (hrec : now + (ratePermit (M : ℤ) now buf).2 ≤ rec) :
    RateInv M (hist ++ [rec]) (dequeAppend 1200 (ratePermit (M : ℤ) now buf).1 rec)
      rec := by
  obtain ⟨k, hk, hbuf, hstale⟩ := inv.suffix
  set p : ℚ → Bool := fun t => decide (now - t > 60) with hp
  obtain ⟨k2, hk2len, hdw, hdwp, hdwhead⟩ := dropWhile_split p buf
  have hM1z : (1 : ℤ) ≤ (M : ℤ) := by exact_mod_cast hM1
  have hMpos : ¬ ((M : ℤ) ≤ 0) := by omega
  set b := buf.dropWhile p with hb
  have hperm : ratePermit (M : ℤ) now buf =
      if (M : ℤ) ≤ (b.length : ℤ) then (b, max 0.05 (60 - (now - b.headI)))
      else (b, 0) := by
    unfold ratePermit
    rw [if_neg hMpos]
  have hperm1 : (ratePermit (M : ℤ) now buf).1 = b := by
    rw [hperm]
    split <;> rfl
  have hperm2 : (ratePermit (M : ℤ) now buf).2 =
      (if (M : ℤ) ≤ (b.length : ℤ) then max 0.05 (60 - (now - b.headI)) else 0) := by
    rw [hperm]
    split <;> simp_all
  have hbdrop : b = hist.drop (k + k2) := by
    rw [hdw, hbuf, List.drop_drop]
  have hbuflen : buf.length = hist.length - k := by
    rw [hbuf, List.length_drop]
  have hj'len : k + k2 ≤ hist.length := by omega
  have hblen : b.length = hist.length - (k + k2) := by
    rw [hbdrop, List.length_drop]
  have hsortb : b.Pairwise (· ≤ ·) := by
    rw [hbdrop]
    exact inv.sorted.sublist (List.drop_sublist _ _)
  have hbget : ∀ m (hm : m < b.length),
      b.get ⟨m, hm⟩ = hist.get ⟨k + k2 + m, by omega⟩ := by
    intro m hm
    have hm' : m < (hist.drop (k + k2)).length := by
      rw [← hbdrop]
      exact hm
    rw [List.get_of_eq hbdrop ⟨m, hm⟩, List.get_drop]
  have hages : ∀ t ∈ b, now - t < 60 := by
    intro t ht
    have htbuf : t ∈ buf := by
      rw [hdw] at ht
      exact (List.drop_sublist k2 buf).subset ht
    have hne := hgen t htbuf
    cases hbcase : b with
    | nil =>
      rw [hbcase] at ht
      simp at ht
    | cons hd tl =>
      have hhd : p hd = false := hdwhead hd tl hbcase
      have hhd' : now - hd ≤ 60 := by
        simp only [hp, decide_eq_false_iff_not, not_lt] at hhd
        exact hhd
      rw [hbcase] at ht
      rcases List.mem_cons.mp ht with rfl | htl
      · exact lt_of_le_of_ne hhd' hne
      · have hle : hd ≤ t := by
          rw [hbcase] at hsortb
          exact (List.pairwise_cons.mp hsortb).1 t htl
        exact lt_of_le_of_ne (by linarith) hne
  have hlenM : b.length ≤ M := by
    by_contra hcon
    push_neg at hcon
    have h0 : (0 : ℕ) < b.length := by omega
    have hj'M : k + k2 + M < hist.length := by omega
    have hhead : b.get ⟨0, h0⟩ = hist.get ⟨k + k2, by omega⟩ := by
      have := hbget 0 h0
      rw [this]
      exact get_congr _ _ _ _ _ (by omega)
    have hage0 : now - b.get ⟨0, h0⟩ < 60 := hages _ (List.get_mem b 0 h0)
    have hsp := inv.sparse (k + k2) hj'M
    have hbd := inv.bounded (hist.get ⟨k + k2 + M, hj'M⟩) (List.get_mem _ _ _)
    rw [hhead] at hage0
    have hsp' : hist.get ⟨k + k2, by omega⟩ + 60 ≤ hist.get ⟨k + k2 + M, hj'M⟩ := by
      have := hsp
      rwa [get_congr hist (k + k2) (k + k2) (by omega) (by omega) rfl] at this
    linarith
  have hsleep0 : 0 ≤ (ratePermit (M : ℤ) now buf).2 := by
    rw [hperm2]
    split
    · have h1 : (0.05 : ℚ) ≤ max 0.05 (60 - (now - b.headI)) := le_max_left _ _
      have h2 : (0 : ℚ) ≤ 0.05 := by norm_num
      linarith
    · exact le_refl 0
  have hrecnow : now ≤ rec := by linarith
  have hsat : M ≤ b.length → ∀ hkk : k + k2 < hist.length,
      hist.get ⟨k + k2, hkk⟩ + 60 ≤ rec := by
    intro hM hkk
    have h0 : 0 < b.length := by omega
    have hcond : (M : ℤ) ≤ (b.length : ℤ) := by exact_mod_cast hM
    have hsleep : (ratePermit (M : ℤ) now buf).2 =
        max 0.05 (60 - (now - b.headI)) := by
      rw [hperm2, if_pos hcond]
    have hheadI : b.headI = hist.get ⟨k + k2, hkk⟩ := by
      cases hbcase : b with
      | nil =>
        rw [hbcase] at h0
        simp at h0
      | cons hd tl =>
        have h00 : (0 : ℕ) < b.length := h0
        have := hbget 0 h00
        have hhd : b.get ⟨0, h00⟩ = hd := by
          rw [List.get_of_eq hbcase]
          rfl
        show hd = _
        rw [← hhd, this]
        exact get_congr _ _ _ _ _ (by omega)
    have hmx : 60 - (now - b.headI) ≤ (ratePermit (M : ℤ) now buf).2 := by
      rw [hsleep]
      exact le_max_right _ _
    rw [hheadI] at hmx
    linarith
  have hstale' : ∀ i, i < k + k2 →
      ∃ hi : i < hist.length, hist.get ⟨i, hi⟩ + 60 ≤ rec := by
    intro i hik
    have hi : i < hist.length := by omega
    refine ⟨hi, ?_⟩
    by_cases hik' : i < k
    · exact le_trans (hstale i hik') (by linarith)
    · obtain ⟨hil, hpi⟩ := hdwp (i - k) (by omega)
      have hgeq : buf.get ⟨i - k, hil⟩ = hist.get ⟨i, hi⟩ := by
        rw [get_congr hist i (k + (i - k)) hi (by omega) (by omega)]
        rw [List.get_of_eq hbuf ⟨i - k, hil⟩, List.get_drop]
      have hval : 60 < now - hist.get ⟨i, hi⟩ := by
        rw [← hgeq]
        simpa [hp] using hpi
      linarith
  have hbound' : ∀ x ∈ hist ++ [rec], x ≤ rec := by
    intro x hx
    rcases List.mem_append.mp hx with hx | hx
    · exact le_trans (inv.bounded x hx) (by linarith)
    · simp at hx
      subst hx
      exact le_refl _
  have hsorted' : (hist ++ [rec]).Pairwise (· ≤ ·) := by
    rw [List.pairwise_append]
    refine ⟨inv.sorted, List.pairwise_singleton _ _, ?_⟩
    intro x hx y hy
    simp at hy
    subst hy
    exact le_trans (inv.bounded x hx) (by linarith)
  refine ⟨hsorted', hbound', ?_, ?_⟩
  · rw [hperm1]
    unfold dequeAppend
    by_cases hfull : 1200 ≤ b.length
    · rw [if_pos hfull]
      have hbM : b.length = M := by omega
      have hkk : k + k2 < hist.length := by omega
      refine ⟨k + k2 + 1, by simp; omega, ?_, ?_⟩
      · rw [hbdrop, List.tail_drop, ← List.drop_append_of_le_length (by omega)]
      · intro i hik
        by_cases hik2 : i < k + k2
        · obtain ⟨hi, hle⟩ := hstale' i hik2
          rw [List.get_append i hi]
          exact hle
        · have hieq : i = k + k2 := by omega
          have hi : i < hist.length := by omega
          rw [List.get_append i hi, get_congr hist i (k + k2) hi hkk hieq]
          exact hsat (by omega) hkk
    · rw [if_neg hfull]
      refine ⟨k + k2, by simp; omega, ?_, ?_⟩
      · rw [hbdrop, ← List.drop_append_of_le_length hj'len]
      · intro i hik
        obtain ⟨hi, hle⟩ := hstale' i hik
        rw [List.get_append i hi]
        exact hle
  · intro i hiM
    have hiM' : i + M < hist.length + 1 := by
      simpa using hiM
    by_cases hend : i + M < hist.length
    · have hgoal := inv.sparse i hend
      rw [List.get_append i (by omega), List.get_append (i + M) hend]
      rw [get_congr hist i i (by omega) (by omega) rfl]
      exact hgoal
    · have hiMeq : i + M = hist.length := by omega
      have hrec' : (hist ++ [rec]).get ⟨i + M, hiM⟩ = rec := by
        have hlast : (hist ++ [rec]).get ⟨hist.length, by simp⟩ = rec := by
          rw [List.get_eq_getElem, List.getElem_append]
          simp
        rw [get_congr _ _ hist.length _ (by simp) hiMeq]
        exact hlast
      rw [List.get_append i (by omega), hrec']
      by_cases hbM : M ≤ b.length
      · have hbleneq : b.length = M := by omega
        have hieq : i = k + k2 := by omega
        have hkk : k + k2 < hist.length := by omega
        rw [get_congr hist i (k + k2) (by omega) hkk hieq]
        exact hsat hbM hkk
      · have hik2 : i < k + k2 := by omega
        obtain ⟨hi, hle⟩ := hstale' i hik2
        rw [get_congr hist i i (by omega) hi rfl]
        exact hle

/-- Running a valid, generic trace preserves the invariant. -/
theorem rate_run (M : ℕ) (hM1 : 1 ≤ M) (hM2 : M ≤ 1200) :
    ∀ (steps : List (ℚ × ℚ)) (hist buf : List ℚ) (t0 : ℚ),
      RateInv M hist buf t0 →
      stepsOk (M : ℤ) buf t0 steps →
      stepsGen (M : ℤ) buf t0 steps →
      ∃ buf2 t2, RateInv M (hist ++ steps.map Prod.snd) buf2 t2 := by
  intro steps
  induction steps with
  | nil =>
    intro hist buf t0 inv _ _
    exact ⟨buf, t0, by simpa using inv⟩
  | cons s rest ih =>
    obtain ⟨now, rec⟩ := s
    intro hist buf t0 inv hok hgen
    obtain ⟨h1, h2, h3⟩ := hok
    obtain ⟨g1, g2⟩ := hgen
    have inv' := rate_step M hM1 hM2 hist buf t0 now rec inv h1 g1 h2
    have hrest := ih (hist ++ [rec]) _ rec inv' h3 g2
    simpa [List.append_assoc] using hrest

/-- C1 (amended): for a configured maximum `M` with `0 < M ≤ 1200` (the
capacity of the `_action_times` deque), and provided no buffered timestamp
sits at exactly the 60-second boundary at a permit instant (true of generic
real timings — see the counterexample for the boundary case), the number of
recorded action timestamps in any trailing window `(T − 60, T]` never
exceeds `M`.  The permit mechanics are exactly those of `ratePermit`:
drop stale timestamps from the deque front, then sleep
`max(0.05, 60 − age of oldest)` when the buffer holds at least `M`. -/
theorem rate_limit_window_bound (M : ℕ) (hM1 : 1 ≤ M) (hM2 : M ≤ 1200)
    (steps : List (ℚ × ℚ)) (t0 : ℚ)
    (hok : stepsOk (M : ℤ) [] t0 steps)
    (hgen : stepsGen (M : ℤ) [] t0 steps) (T : ℚ) :
    (steps.map Prod.snd).countP
      (fun t => decide (T - 60 < t) && decide (t ≤ T)) ≤ M := by
  have inv0 : RateInv M [] [] t0 := by
    refine ⟨List.Pairwise.nil, by simp, ⟨0, by simp, rfl, ?_⟩, ?_⟩
    · intro i hik
      exact absurd hik (by omega)
    · intro i hiM
      simp at hiM
  obtain ⟨buf2, t2, inv⟩ := rate_run M hM1 hM2 steps [] [] t0 inv0 hok hgen
  exact window_count M _ inv.sorted inv.sparse T

/-- C1 witness: a single instantaneous action under `M = 1` stays within
the budget for the window ending at 60. -/
theorem rate_limit_window_bound_witness :
    ([((0 : ℚ), (0 : ℚ))].map Prod.snd).countP
      (fun t => decide ((60 : ℚ) - 60 < t) && decide (t ≤ (60 : ℚ))) ≤ 1 :=
  rate_limit_window_bound 1 (by decide) (by decide) [((0 : ℚ), (0 : ℚ))] 0
    (by simp [stepsOk, ratePermit]) (by simp [stepsGen]) 60

/-- The boundary trace: an action at 0, the forced wait to 60, and then a
permit at exactly 60 — the timestamp 0 is 60.0 seconds old, the strict
`> 60` drop keeps it, so the sleep is only the 0.05 floor and the third
action lands at 60.05. -/
def rateCexSteps : List (ℚ × ℚ) := [(0, 0), (0, 60), (60, 1201/20)]

/-- C1 counterexample: the boundary trace is a valid execution of
`_rate_limit`/record with `M = 1`, yet the trailing window
`(60.05 − 60, 60.05]` contains two recorded timestamps (60 and 60.05) —
the count exceeds the configured maximum of one. -/
theorem rate_limit_window_counterexample :
    stepsOk 1 [] 0 rateCexSteps ∧
    (rateCexSteps.map Prod.snd).countP
      (fun t => decide ((1201/20 : ℚ) - 60 < t) && decide (t ≤ (1201/20 : ℚ))) = 2 ∧
    ¬ (2 ≤ 1) := by
  have e1 : ratePermit 1 0 ([] : List ℚ) = ([], 0) := by
    norm_num [ratePermit]
  have e2 : ratePermit 1 0 [(0 : ℚ)] = ([0], 60) := by
    norm_num [ratePermit, List.dropWhile_cons, List.headI, max_def]
  have e3 : ratePermit 1 60 [(0 : ℚ), 60] = ([0, 60], 0.05) := by
    norm_num [ratePermit, List.dropWhile_cons, List.headI, max_def]
  refine ⟨?_, ?_, by omega⟩
  · show stepsOk 1 [] 0 [(0, 0), (0, 60), (60, 1201/20)]
    refine ⟨le_refl 0, ?_, le_refl 0, ?_, le_refl 60, ?_, trivial⟩
    · rw [e1]
      norm_num
    · rw [e1]
      norm_num [dequeAppend, e2]
    · rw [e1]
      norm_num [dequeAppend, e2, e3]
  · norm_num [rateCexSteps, List.countP_cons, List.countP_nil]

end AnilAgent
